import Mathlib

/-!
# Rotated thumbnail creator

A shallow embedding of `src/rotatedThumbnailCreator.cpp` and the properties
stated about it.

* `std::string` is a `List Char`.
* Host memory is a function from byte offsets to bytes; `unsigned int`
  arithmetic is reduced modulo `2^32`.
* A `double` is the rational number it denotes; every arithmetic operation is
  the exact one followed by rounding to the nearest binary64 number, ties to
  even. The conversion to `int` truncates.
* The NPP library is a parameter: the outcome of each of its calls, and
  whether the destructor of its device image frees the buffer, are given by a
  `Lib`. The device is a state that records the live allocations and the
  calls made; the destructors of the automatic device images run on every
  exit of `convertImage`.

The definitions come first, then the facts about them, then the statements
numbered C1 to C10.
-/

namespace RotatedThumbnail

/-! ## Output file name -/

/-- The call `s.rfind(c)` of `std::string`: the index of the last occurrence
of `c`, and `none` for `npos`. -/
def rfind (s : List Char) (c : Char) : Option Nat :=
  match s with
  | [] => none
  | x :: xs =>
    match rfind xs c with
    | some i => some (i + 1)
    | none => if x = c then some 0 else none

/-- The function `getOutputFileName` (lines 170-175). -/
def getOutputFileName (inputFile preExtSuffix : List Char) : List Char :=
  match rfind inputFile '.' with
  | none => inputFile ++ preExtSuffix
  | some dotLoc => inputFile.take dotLoc ++ preExtSuffix ++ inputFile.drop dotLoc

/-- The directory part of a path: everything up to and including the last
`/`; empty when the path has no `/`. -/
def dirPart (path : List Char) : List Char :=
  match rfind path '/' with
  | none => []
  | some i => path.take (i + 1)

/-- The final path component: everything after the last `/`. -/
def fileNamePart (path : List Char) : List Char :=
  match rfind path '/' with
  | none => path
  | some i => path.drop (i + 1)

/-- The output name as the usage text words it: the suffix goes right before
the extension of the file name (the last `.` of the final path component and
what follows it), at the end when the file name has no extension; the
directory part is kept. -/
def suffixedFileName (path suffix : List Char) : List Char :=
  let name := fileNamePart path
  match rfind name '.' with
  | none => dirPart path ++ name ++ suffix
  | some i => dirPart path ++ name.take i ++ suffix ++ name.drop i

/-! ## Row copies of `loadImage` and `saveImage` -/

/-- Host memory of one buffer: the byte stored at each offset from the
buffer's first byte. -/
abbrev Mem := Int → Nat

/-- The value of an `unsigned int` expression: reduction modulo `2^32`. -/
def u32 (n : Int) : Int := n % 2 ^ 32

/-- The call `memcpy(dst + d, src + s, n)` between two distinct buffers. -/
def memcpy (dst : Mem) (d : Int) (src : Mem) (s : Int) (n : Int) : Mem :=
  fun a => if d ≤ a ∧ a < d + n then src (s + (a - d)) else dst a

/-- The loop of `loadImage` (lines 118-123) with `k` iterations left:
`srcLine` walks down by `srcPitch`, `dstLine` walks up by `dstPitch`. -/
def loadRows (src : Mem) (width srcPitch dstPitch : Nat) : Nat → Int → Int → Mem → Mem
  | 0, _, _, dst => dst
  | k + 1, srcLine, dstLine, dst =>
    loadRows src width srcPitch dstPitch k (srcLine - srcPitch) (dstLine + dstPitch)
      (memcpy dst dstLine src srcLine (u32 (width * 3)))

/-- Lines 114-123 of `loadImage`: the copy of the bitmap `bits` (`width` by
`height`, pitch `srcPitch`) into the image buffer `data` (pitch `dstPitch`).
The start offset `srcPitch * (height - 1)` is an `unsigned int` product. -/
def loadImageCopy (bits : Mem) (width height srcPitch dstPitch : Nat) (data : Mem) : Mem :=
  loadRows bits width srcPitch dstPitch height
    (u32 (srcPitch * u32 (height - 1))) 0 data

/-- The loop of `saveImage` (lines 187-192) with `k` iterations left:
`srcLine` walks up by `srcPitch`, `dstLine` walks down by `dstPitch`. -/
def saveRows (src : Mem) (width srcPitch dstPitch : Nat) : Nat → Int → Int → Mem → Mem
  | 0, _, _, dst => dst
  | k + 1, srcLine, dstLine, dst =>
    saveRows src width srcPitch dstPitch k (srcLine + srcPitch) (dstLine - dstPitch)
      (memcpy dst dstLine src srcLine (u32 (width * 3)))

/-- Lines 183-192 of `saveImage`: the copy of the image buffer `data` (pitch
`srcPitch`) into the bitmap `bits` (pitch `dstPitch`). The start offset
`dstPitch * (height - 1)` is an `unsigned int` product. -/
def saveImageCopy (data : Mem) (width height srcPitch dstPitch : Nat) (bits : Mem) : Mem :=
  saveRows data width srcPitch dstPitch height 0
    (u32 (dstPitch * u32 (height - 1))) bits

/-! ## Binary64 arithmetic

A finite `double` is the rational number it denotes. Each arithmetic
operation of the source is the exact operation followed by `fl`, rounding to
the nearest number with a 53-bit significand, ties to even. All values that
occur for `int` arguments lie far inside the normal range of binary64, so the
unbounded exponent of `fl` is never visible. -/

/-- Rounding of a rational to the nearest integer, ties to even. -/
def rne (x : ℚ) : ℤ :=
  let f := ⌊x⌋
  if x - f < 1 / 2 then f
  else if 1 / 2 < x - f then f + 1
  else if f % 2 = 0 then f else f + 1

/-- Rounding to binary64: with `e` the binary exponent of `q`, the
significand `q / 2^(e-52)` is rounded to an integer. -/
def fl (q : ℚ) : ℚ :=
  if q = 0 then 0
  else (rne (q / 2 ^ (Int.log 2 |q| - 52)) : ℚ) * 2 ^ (Int.log 2 |q| - 52)

/-- Unit roundoff of binary64. -/
def uro : ℚ := 1 / 2 ^ 53

/-- The value of `sqrt(2.)`: the binary64 number nearest to the square root
of two, `0x3FF6A09E667F3BCD`. -/
def sqrt2 : ℚ := 6369051672525773 / 2 ^ 52

/-- Conversion of a `double` to `int`: truncation toward zero; `none` when
the truncated value is not an `int` (undefined behaviour in the source). -/
def toInt (x : ℚ) : Option ℤ :=
  let t := if 0 ≤ x then ⌊x⌋ else ⌈x⌉
  if -2 ^ 31 ≤ t ∧ t < 2 ^ 31 then some t else none

/-- Line 136 of `convertImage`: the `double` named `ratio`. -/
def ratioOf (srcWidth srcHeight : ℤ) : ℚ := fl ((srcWidth : ℚ) / (srcHeight : ℚ))

/-- The right-hand side of line 138: the `double` that is converted to
`shrinkSizeHeight`. -/
def heightValue (srcWidth srcHeight dstSizeBoth : ℤ) : ℚ :=
  fl (fl (sqrt2 * (dstSizeBoth : ℚ)) / fl (1 + ratioOf srcWidth srcHeight))

/-- The right-hand side of line 139: the `double` that is converted to
`shrinkSizeWidth`. -/
def widthValue (shrinkSizeHeight : ℤ) (ratioValue : ℚ) : ℚ :=
  fl ((shrinkSizeHeight : ℚ) * ratioValue)

/-- Lines 136-140 of `convertImage`: the shrink size `(width, height)` from
the source size and the destination size. `none` stands for the cases the
source leaves undefined or non-finite: a zero height or a zero `1. + ratio`
(division by zero), and a value that does not fit `int`. -/
def shrinkSize (srcWidth srcHeight dstSizeBoth : ℤ) : Option (ℤ × ℤ) :=
  if srcHeight = 0 then none
  else if fl (1 + ratioOf srcWidth srcHeight) = 0 then none
  else
    match toInt (heightValue srcWidth srcHeight dstSizeBoth) with
    | none => none
    | some shrinkSizeHeight =>
      match toInt (widthValue shrinkSizeHeight (ratioOf srcWidth srcHeight)) with
      | none => none
      | some shrinkSizeWidth => some (shrinkSizeWidth, shrinkSizeHeight)

/-! ## The device transform `convertImage` -/

/-- The class `npp::ImageCPU_8u_C3` as far as `convertImage` uses it: the
size of a host image. Pixel values are produced by the NPP kernels and are
not modelled. -/
structure ImageCPU where
  width : Nat
  height : Nat
  deriving DecidableEq, Repr

/-- A call into the NPP library made by `convertImage`. -/
inductive Call where
  /-- Construction of `ImageNPP_8u_C3` from a host image: device allocation
  and host-to-device copy. -/
  | upload (width height : Nat)
  /-- Construction of `ImageNPP_8u_C3(width, height)`: device allocation. -/
  | alloc (width height : Nat)
  /-- The call of `nppiResize_8u_C3R`, with source and destination size. -/
  | resize (srcWidth srcHeight dstWidth dstHeight : ℤ)
  /-- The call of `nppiRotate_8u_C3R` by 45 degrees, with source size,
  destination size and the shift along the second axis; the shift along the
  first axis is the constant 0. -/
  | rotate (srcWidth srcHeight dstSizeBoth : ℤ) (shiftY : ℚ)
  /-- Construction of the host result and `copyTo`. -/
  | download (width height : Nat)
  /-- The call of `nppiFree`. -/
  | free (ptr : Nat)
  deriving DecidableEq

/-- The device: the pointers allocated and not yet freed, the next fresh
pointer, and the calls made so far. -/
structure Device where
  live : List Nat
  next : Nat
  calls : List Call

/-- What the source does not determine about the NPP library: the outcome of
each call (`true` for success), which may depend on the device state and the
arguments, and whether the destructor of `npp::ImageNPP_8u_C3` frees the
device buffer of the object. -/
structure Lib where
  uploadOk : Device → Nat → Nat → Bool
  allocOk : Device → Nat → Nat → Bool
  resizeOk : Device → ℤ → ℤ → ℤ → ℤ → Bool
  rotateOk : Device → ℤ → ℤ → ℤ → Bool
  downloadOk : Device → Nat → Nat → Bool
  destructorFrees : Bool

/-- The place at which `convertImage` throws. `undefinedSize` stands for the
executions in which `shrinkSize` is `none`. -/
inductive Exn where
  | upload
  | shrinkAlloc
  | resize
  | dstAlloc
  | rotate
  | download
  | undefinedSize
  deriving DecidableEq, Repr

/-- Record a library call. -/
def Device.call (d : Device) (c : Call) : Device :=
  { d with calls := d.calls ++ [c] }

/-- A successful device allocation: a fresh pointer becomes live. -/
def Device.malloc (d : Device) : Nat × Device :=
  (d.next, { d with live := d.next :: d.live, next := d.next + 1 })

/-- The call `nppiFree(ptr)`; on a pointer that is not live it frees
nothing. -/
def Device.nppiFree (d : Device) (ptr : Nat) : Device :=
  { d with live := d.live.erase ptr, calls := d.calls ++ [Call.free ptr] }

/-- The destructor of an automatic `npp::ImageNPP_8u_C3` object, run when
`convertImage` is left by `return` or by an exception: it calls `nppiFree` on
the buffer of the object when the library's destructor frees, and does nothing
otherwise. -/
def Device.destroy (lib : Lib) (d : Device) (ptr : Nat) : Device :=
  if lib.destructorFrees = true then d.nppiFree ptr else d

/-- Modelled from the spec: the class `npp::ImageNPP_8u_C3` and its destructor
are declared in `ImagesNPP.h`, which is not among the sources. A library is
scoped when its device image is the DeviceBuffer of the spec, "released before
the engine call returns (success or failure)": the destructor frees the
buffer. -/
def Lib.Scoped (lib : Lib) : Prop := lib.destructorFrees = true

/-- The cast `(int)` of an `unsigned int`. -/
def toInt32 (n : Nat) : ℤ :=
  if n % 2 ^ 32 < 2 ^ 31 then ((n % 2 ^ 32 : Nat) : ℤ) else ((n % 2 ^ 32 : Nat) : ℤ) - 2 ^ 32

/-- The conversion of an `int` to `unsigned int`. -/
def toU32 (z : ℤ) : Nat := (z % 2 ^ 32).toNat

/-- The function `convertImage` (lines 132-166): the result or the place of
the exception, and the device state left behind. On every exit the
destructors of the automatic device images constructed so far run, in the
reverse order of construction. -/
def convertImage (lib : Lib) (inputImage : ImageCPU) (dstSizeBoth : ℤ) (d : Device) :
    Except Exn ImageCPU × Device :=
  -- line 134
  let d1 := d.call (Call.upload inputImage.width inputImage.height)
  if lib.uploadOk d inputImage.width inputImage.height = false then (Except.error Exn.upload, d1)
  else
    let (deviceInputImage, d2) := d1.malloc
    -- lines 135-140
    let srcWidth := toInt32 inputImage.width
    let srcHeight := toInt32 inputImage.height
    match shrinkSize srcWidth srcHeight dstSizeBoth with
    | none => (Except.error Exn.undefinedSize, Device.destroy lib d2 deviceInputImage)
    | some (shrinkWidth, shrinkHeight) =>
      -- line 141
      let d3 := d2.call (Call.alloc (toU32 shrinkWidth) (toU32 shrinkHeight))
      if lib.allocOk d2 (toU32 shrinkWidth) (toU32 shrinkHeight) = false then
        (Except.error Exn.shrinkAlloc, Device.destroy lib d3 deviceInputImage)
      else
        let (deviceShrinkImage, d4) := d3.malloc
        -- lines 143-146
        let d5 := d4.call (Call.resize srcWidth srcHeight shrinkWidth shrinkHeight)
        if lib.resizeOk d4 srcWidth srcHeight shrinkWidth shrinkHeight = false then
          (Except.error Exn.resize,
            Device.destroy lib (Device.destroy lib d5 deviceShrinkImage) deviceInputImage)
        else
          -- lines 148-149
          let d6 := d5.call (Call.alloc (toU32 dstSizeBoth) (toU32 dstSizeBoth))
          if lib.allocOk d5 (toU32 dstSizeBoth) (toU32 dstSizeBoth) = false then
            (Except.error Exn.dstAlloc,
              Device.destroy lib (Device.destroy lib d6 deviceShrinkImage) deviceInputImage)
          else
            let (deviceOutputImage, d7) := d6.malloc
            -- lines 151-155
            let d8 := d7.call (Call.rotate shrinkWidth shrinkHeight dstSizeBoth
              (fl ((shrinkWidth : ℚ) / sqrt2)))
            if lib.rotateOk d7 shrinkWidth shrinkHeight dstSizeBoth = false then
              (Except.error Exn.rotate,
                Device.destroy lib (Device.destroy lib (Device.destroy lib d8 deviceOutputImage)
                  deviceShrinkImage) deviceInputImage)
            else
              -- lines 158-159
              let d9 := d8.call (Call.download (toU32 dstSizeBoth) (toU32 dstSizeBoth))
              if lib.downloadOk d8 (toU32 dstSizeBoth) (toU32 dstSizeBoth) = false then
                (Except.error Exn.download,
                  Device.destroy lib (Device.destroy lib (Device.destroy lib d9 deviceOutputImage)
                    deviceShrinkImage) deviceInputImage)
              else
                -- lines 161-165
                let d10 := ((d9.nppiFree deviceInputImage).nppiFree deviceShrinkImage).nppiFree
                  deviceOutputImage
                (Except.ok { width := toU32 dstSizeBoth, height := toU32 dstSizeBoth },
                  Device.destroy lib (Device.destroy lib (Device.destroy lib d10
                    deviceOutputImage) deviceShrinkImage) deviceInputImage)

/-- A library in which every call succeeds and the destructor frees. -/
def allOk : Lib where
  uploadOk := fun _ _ _ => true
  allocOk := fun _ _ _ => true
  resizeOk := fun _ _ _ _ _ => true
  rotateOk := fun _ _ _ _ => true
  downloadOk := fun _ _ _ => true
  destructorFrees := true

/-- A library in which every call succeeds except the resize, and the
destructor frees. -/
def resizeFails : Lib where
  uploadOk := fun _ _ _ => true
  allocOk := fun _ _ _ => true
  resizeOk := fun _ _ _ _ _ => false
  rotateOk := fun _ _ _ _ => true
  downloadOk := fun _ _ _ => true
  destructorFrees := true

/-- A device with nothing allocated. -/
def freshDevice : Device := { live := [], next := 0, calls := [] }

/-! ## Command line -/

/-- The values returned by `parseArgLine`. -/
structure Args where
  inputFiles : List (List Char)
  preExtSuffix : List Char
  dstSizeBoth : ℤ
  deriving DecidableEq

/-- How `parseArgLine` ends: with its result, in `exit(0)` after the usage
text, or with the exception of `std::stoi`. -/
inductive ParseResult where
  | done (args : Args)
  | usageExit
  | stoiThrows
  deriving DecidableEq

/-- The test `arg.find("--") != npos`. -/
def hasDashDash : List Char → Bool
  | [] => false
  | [_] => false
  | a :: b :: rest => (a = '-' && b = '-') || hasDashDash (b :: rest)

/-- The function `isspace` of the C locale. -/
def isSpace (c : Char) : Bool :=
  c = ' ' || c = '\t' || c = '\n' || c = '\r' || c.toNat = 11 || c.toNat = 12

/-- The call `std::stoi(s)`: leading white space, an optional sign, decimal
digits; what follows the digits is ignored. `none` when it throws (no digit,
or a value that is not an `int`). -/
def stoi (s : List Char) : Option ℤ :=
  let s1 := s.dropWhile isSpace
  let negative := s1.head? = some '-'
  let s2 := if s1.head? = some '-' ∨ s1.head? = some '+' then s1.tail else s1
  let digits := s2.takeWhile Char.isDigit
  let value : ℤ := digits.foldl (fun acc c => 10 * acc + ((c.toNat : ℤ) - 48)) 0
  let result := if negative then -value else value
  if digits = [] then none
  else if -2 ^ 31 ≤ result ∧ result < 2 ^ 31 then some result else none

/-- The loop of `parseArgLine` (lines 45-86) over the arguments not yet
read. -/
def parseLoop : List (List Char) → Args → ParseResult
  | [], acc => ParseResult.done acc
  | arg :: rest, acc =>
    if hasDashDash arg then
      if arg.drop 2 = "suffix".toList then
        match rest with
        | [] => ParseResult.done acc
        | value :: rest1 => parseLoop rest1 { acc with preExtSuffix := value }
      else if arg.drop 2 = "size".toList then
        match rest with
        | [] => ParseResult.done acc
        | value :: rest1 =>
          match stoi value with
          | none => ParseResult.stoiThrows
          | some n => parseLoop rest1 { acc with dstSizeBoth := n }
      else if arg.drop 2 = "help".toList then ParseResult.usageExit
      else parseLoop rest acc
    else parseLoop rest { acc with inputFiles := acc.inputFiles ++ [arg] }

/-- The function `parseArgLine` (lines 36-89); `argv` includes the program
name, the defaults are those of lines 22-23. -/
def parseArgLine (argv : List (List Char)) : ParseResult :=
  parseLoop argv.tail { inputFiles := [], preExtSuffix := "_thumb".toList, dstSizeBoth := 200 }

/-! ## Concrete inputs -/

/-- A bitmap in which every byte of row `i` is `i % 256`. -/
def rowPattern (pitch : Nat) : Mem := fun a => (a / pitch).toNat % 256

/-- A zero-filled buffer. -/
def blank : Mem := fun _ => 0

/-- The number of device buffers allocated by `convertImage` before the
place of an exception. -/
def allocatedBefore : Exn → Nat
  | Exn.upload => 0
  | Exn.undefinedSize => 1
  | Exn.shrinkAlloc => 1
  | Exn.resize => 2
  | Exn.dstAlloc => 2
  | Exn.rotate => 3
  | Exn.download => 3

/-! ## Binary64 arithmetic: facts -/

theorem rne_sub_le (x : ℚ) : |(rne x : ℚ) - x| ≤ 1 / 2 := by
  have h1 := Int.floor_le x
  have h2 := Int.lt_floor_add_one x
  unfold rne
  simp only
  split_ifs with a b c
  · rw [abs_le]; constructor <;> linarith
  · push_cast; rw [abs_le]; constructor <;> linarith
  · rw [abs_le]; constructor <;> linarith
  · push_cast; rw [abs_le]; constructor <;> linarith

theorem rne_intCast (n : ℤ) : rne (n : ℚ) = n := by
  simp [rne]

theorem rne_mono {x y : ℚ} (h : x ≤ y) : rne x ≤ rne y := by
  have hf : ⌊x⌋ ≤ ⌊y⌋ := Int.floor_mono h
  rcases hf.lt_or_eq with hlt | heq
  · have h1 : rne x ≤ ⌊x⌋ + 1 := by
      unfold rne; simp only; split_ifs <;> omega
    have h2 : ⌊y⌋ ≤ rne y := by
      unfold rne; simp only; split_ifs <;> omega
    omega
  · unfold rne
    simp only
    rw [heq]
    split_ifs <;> first | omega | (exfalso; linarith)


theorem two_zpow_pos (k : ℤ) : (0 : ℚ) < 2 ^ k := zpow_pos (by norm_num) k

theorem two_zpow_split (e : ℤ) (n : ℕ) : (2 : ℚ) ^ e = 2 ^ n * 2 ^ (e - n) := by
  rw [← zpow_natCast, ← zpow_add₀ (by norm_num : (2 : ℚ) ≠ 0)]
  congr 1
  ring

theorem fl_of_pos {q : ℚ} (hq : 0 < q) :
    fl q = (rne (q / 2 ^ (Int.log 2 q - 52)) : ℚ) * 2 ^ (Int.log 2 q - 52) := by
  unfold fl
  rw [if_neg hq.ne', abs_of_pos hq]

/-- The scaled significand of a positive number lies in `[2^52, 2^53)`. -/
theorem scaled_bounds {q : ℚ} (hq : 0 < q) :
    (2 : ℚ) ^ 52 ≤ q / 2 ^ (Int.log 2 q - 52) ∧ q / 2 ^ (Int.log 2 q - 52) < 2 ^ 53 := by
  have hs := two_zpow_pos (Int.log 2 q - 52)
  have h1 : (2 : ℚ) ^ Int.log 2 q ≤ q := by
    have := Int.zpow_log_le_self (b := 2) (by norm_num) hq
    simpa using this
  have h2 : q < (2 : ℚ) ^ (Int.log 2 q + 1) := by
    have := Int.lt_zpow_succ_log_self (b := 2) (by norm_num) q
    simpa using this
  have e1 := two_zpow_split (Int.log 2 q) 52
  have e2 : (2 : ℚ) ^ (Int.log 2 q + 1) = 2 ^ 53 * 2 ^ (Int.log 2 q - 52) := by
    rw [zpow_add_one₀ (by norm_num), e1]; push_cast; ring
  constructor
  · rw [le_div_iff₀ hs]; push_cast at e1; linarith
  · rw [div_lt_iff₀ hs]; linarith

theorem fl_bounds {q : ℚ} (hq : 0 < q) :
    (2 : ℚ) ^ Int.log 2 q ≤ fl q ∧ fl q ≤ 2 ^ (Int.log 2 q + 1) ∧
      |fl q - q| ≤ 2 ^ (Int.log 2 q - 52) / 2 := by
  have hs := two_zpow_pos (Int.log 2 q - 52)
  obtain ⟨b1, b2⟩ := scaled_bounds hq
  have e1 := two_zpow_split (Int.log 2 q) 52
  have e2 : (2 : ℚ) ^ (Int.log 2 q + 1) = 2 ^ 53 * 2 ^ (Int.log 2 q - 52) := by
    rw [zpow_add_one₀ (by norm_num), e1]; push_cast; ring
  have r1 : ((2 ^ 52 : ℤ) : ℚ) ≤ rne (q / 2 ^ (Int.log 2 q - 52)) := by
    have := rne_mono (x := ((2 ^ 52 : ℤ) : ℚ)) (by push_cast; exact b1)
    rw [rne_intCast] at this
    exact_mod_cast this
  have r2 : (rne (q / 2 ^ (Int.log 2 q - 52)) : ℚ) ≤ ((2 ^ 53 : ℤ) : ℚ) := by
    have := rne_mono (y := ((2 ^ 53 : ℤ) : ℚ)) (by push_cast; exact b2.le)
    rw [rne_intCast] at this
    exact_mod_cast this
  have r3 := rne_sub_le (q / 2 ^ (Int.log 2 q - 52))
  rw [fl_of_pos hq]
  refine ⟨?_, ?_, ?_⟩
  · rw [e1]; push_cast at r1 ⊢
    exact mul_le_mul_of_nonneg_right r1 hs.le
  · rw [e2]; push_cast at r2
    exact mul_le_mul_of_nonneg_right r2 hs.le
  · have : (rne (q / 2 ^ (Int.log 2 q - 52)) : ℚ) * 2 ^ (Int.log 2 q - 52) - q
        = ((rne (q / 2 ^ (Int.log 2 q - 52)) : ℚ) - q / 2 ^ (Int.log 2 q - 52))
          * 2 ^ (Int.log 2 q - 52) := by
      field_simp
    rw [this, abs_mul, abs_of_pos hs]
    calc _ ≤ 1 / 2 * 2 ^ (Int.log 2 q - 52) := mul_le_mul_of_nonneg_right r3 hs.le
      _ = _ := by ring

theorem fl_err {q : ℚ} (hq : 0 < q) : |fl q - q| ≤ q * uro := by
  obtain ⟨-, -, h⟩ := fl_bounds hq
  have h1 : (2 : ℚ) ^ Int.log 2 q ≤ q := by
    have := Int.zpow_log_le_self (b := 2) (by norm_num) hq
    simpa using this
  have e1 := two_zpow_split (Int.log 2 q) 52
  have hs := two_zpow_pos (Int.log 2 q - 52)
  unfold uro
  calc |fl q - q| ≤ 2 ^ (Int.log 2 q - 52) / 2 := h
    _ = (2 ^ 52 * 2 ^ (Int.log 2 q - 52)) * (1 / 2 ^ 53) := by ring
    _ ≤ q * (1 / 2 ^ 53) := by
      apply mul_le_mul_of_nonneg_right _ (by positivity)
      push_cast at e1; linarith

theorem fl_zero : fl 0 = 0 := by simp [fl]

theorem fl_pos {q : ℚ} (hq : 0 < q) : 0 < fl q :=
  lt_of_lt_of_le (two_zpow_pos _) (fl_bounds hq).1

theorem fl_nonneg {q : ℚ} (hq : 0 ≤ q) : 0 ≤ fl q := by
  rcases hq.lt_or_eq with h | h
  · exact (fl_pos h).le
  · rw [← h, fl_zero]

theorem fl_mono {a b : ℚ} (ha : 0 ≤ a) (hab : a ≤ b) : fl a ≤ fl b := by
  rcases ha.lt_or_eq with h | h
  · have hb : 0 < b := lt_of_lt_of_le h hab
    have hl : Int.log 2 a ≤ Int.log 2 b := Int.log_mono_right h hab
    rcases hl.lt_or_eq with hlt | heq
    · have h1 := (fl_bounds h).2.1
      have h2 := (fl_bounds hb).1
      have : (2 : ℚ) ^ (Int.log 2 a + 1) ≤ 2 ^ Int.log 2 b :=
        zpow_le_zpow_right₀ (by norm_num) (by omega)
      linarith
    · rw [fl_of_pos h, fl_of_pos hb, heq]
      have hs := two_zpow_pos (Int.log 2 b - 52)
      apply mul_le_mul_of_nonneg_right _ hs.le
      have : rne (a / 2 ^ (Int.log 2 b - 52)) ≤ rne (b / 2 ^ (Int.log 2 b - 52)) :=
        rne_mono (div_le_div_of_nonneg_right hab hs.le)
      exact_mod_cast this
  · rw [← h, fl_zero]; exact fl_nonneg (h ▸ hab)

theorem rne_eq_of_abs_lt {x : ℚ} {m : ℤ} (h : |x - m| < 1 / 2) : rne x = m := by
  rw [abs_lt] at h
  obtain ⟨h1, h2⟩ := h
  have f1 := Int.floor_le x
  have f2 := Int.lt_floor_add_one x
  have a1 : ⌊x⌋ < m + 1 := by
    have : ((⌊x⌋ : ℤ) : ℚ) < ((m + 1 : ℤ) : ℚ) := by push_cast; linarith
    exact_mod_cast this
  have a2 : m - 1 < ⌊x⌋ + 1 := by
    have : ((m - 1 : ℤ) : ℚ) < ((⌊x⌋ + 1 : ℤ) : ℚ) := by push_cast; linarith
    exact_mod_cast this
  have hc : ⌊x⌋ = m ∨ ⌊x⌋ = m - 1 := by omega
  unfold rne
  simp only
  rcases hc with hc | hc
  · rw [hc, if_pos (by linarith)]
  · rw [hc]
    have e : ((m - 1 : ℤ) : ℚ) = (m : ℚ) - 1 := by push_cast; ring
    rw [if_neg (by rw [e]; linarith), if_pos (by rw [e]; linarith)]
    ring

theorem log_eq_of_bounds {q : ℚ} {e : ℤ} (h1 : (2 : ℚ) ^ e ≤ q) (h2 : q < 2 ^ (e + 1)) :
    Int.log 2 q = e := by
  have hq : 0 < q := lt_of_lt_of_le (two_zpow_pos e) h1
  have a : e ≤ Int.log 2 q := (Int.zpow_le_iff_le_log (b := 2) (by norm_num) hq).1 (by simpa using h1)
  have b : Int.log 2 q < e + 1 := (Int.lt_zpow_iff_log_lt (b := 2) (by norm_num) hq).1 (by simpa using h2)
  omega

/-- Evaluation of `fl` at a positive number from its exponent `e` and its
rounded significand `m`. -/
theorem fl_eval {q : ℚ} (e m : ℤ) (h1 : (2 : ℚ) ^ e ≤ q) (h2 : q < 2 ^ (e + 1))
    (h3 : |q / 2 ^ (e - 52) - m| < 1 / 2) : fl q = (m : ℚ) * 2 ^ (e - 52) := by
  have hq : 0 < q := lt_of_lt_of_le (two_zpow_pos e) h1
  rw [fl_of_pos hq, log_eq_of_bounds h1 h2, rne_eq_of_abs_lt h3]

/-- Integers below `2^53` are binary64 numbers. -/
theorem fl_natCast (n : ℕ) (h : n < 2 ^ 53) : fl (n : ℚ) = n := by
  rcases Nat.eq_zero_or_pos n with h0 | h0
  · subst h0; simp [fl_zero]
  have hq : (0 : ℚ) < n := by exact_mod_cast h0
  have hlog : Int.log 2 (n : ℚ) < 53 := by
    have : (n : ℚ) < ((2 : ℕ) : ℚ) ^ (53 : ℤ) := by
      have h53 : ((2 : ℕ) : ℚ) ^ (53 : ℤ) = ((2 ^ 53 : ℕ) : ℚ) := by norm_num
      rw [h53]
      exact_mod_cast h
    exact (Int.lt_zpow_iff_log_lt (b := 2) (by norm_num) hq).1 this
  obtain ⟨j, hj⟩ : ∃ j : ℕ, (j : ℤ) = 52 - Int.log 2 (n : ℚ) := ⟨(52 - Int.log 2 (n : ℚ)).toNat, by omega⟩
  have hs : (2 : ℚ) ^ (Int.log 2 (n : ℚ) - 52) = 1 / 2 ^ j := by
    have : Int.log 2 (n : ℚ) - 52 = -(j : ℤ) := by omega
    rw [this, zpow_neg, zpow_natCast]
    simp
  rw [fl_of_pos hq, hs]
  have : (n : ℚ) / (1 / 2 ^ j) = ((n * 2 ^ j : ℤ) : ℚ) := by
    push_cast; field_simp
  rw [this, rne_intCast]
  push_cast
  field_simp

theorem fl_one : fl 1 = 1 := by
  have := fl_natCast 1 (by norm_num)
  simpa using this

theorem fl_two : fl 2 = 2 := by
  have := fl_natCast 2 (by norm_num)
  simpa using this

theorem fl_le_mul {q : ℚ} (hq : 0 ≤ q) : fl q ≤ q * (1 + uro) := by
  rcases hq.lt_or_eq with h | h
  · have := abs_le.1 (fl_err h)
    linarith [this.2]
  · rw [← h, fl_zero]; simp

theorem mul_le_fl {q : ℚ} (hq : 0 ≤ q) : q * (1 - uro) ≤ fl q := by
  rcases hq.lt_or_eq with h | h
  · have := abs_le.1 (fl_err h)
    linarith [this.1]
  · rw [← h, fl_zero]; simp

/-! ## Shrink size: facts -/

theorem uro_pos : 0 < uro := by norm_num [uro]

theorem uro_lt_one : uro < 1 := by norm_num [uro]

theorem toInt_of_nonneg {x : ℚ} (h0 : 0 ≤ x) (h1 : x < 2 ^ 31) : toInt x = some ⌊x⌋ := by
  have a : 0 ≤ ⌊x⌋ := Int.floor_nonneg.2 h0
  have b : ⌊x⌋ < 2 ^ 31 := by
    rw [Int.floor_lt]
    push_cast
    exact h1
  unfold toInt
  simp only [if_pos h0]
  rw [if_pos ⟨by omega, b⟩]

theorem sqrt2_pos : 0 < sqrt2 := by norm_num [sqrt2]

theorem ratioOf_pos {w h : ℤ} (hw : 0 < w) (hh : 0 < h) : 0 < ratioOf w h := by
  unfold ratioOf
  apply fl_pos
  have : (0 : ℚ) < w := by exact_mod_cast hw
  have : (0 : ℚ) < h := by exact_mod_cast hh
  positivity

theorem ratioOf_bounds {w h : ℤ} (hw : 0 < w) (hh : 0 < h) :
    (w : ℚ) / h * (1 - uro) ≤ ratioOf w h ∧ ratioOf w h ≤ (w : ℚ) / h * (1 + uro) := by
  have a : (0 : ℚ) < w := by exact_mod_cast hw
  have b : (0 : ℚ) < h := by exact_mod_cast hh
  have c : (0 : ℚ) ≤ (w : ℚ) / h := by positivity
  exact ⟨mul_le_fl c, fl_le_mul c⟩

theorem heightValue_nonneg {w h D : ℤ} (hw : 0 < w) (hh : 0 < h) (hD : 0 ≤ D) :
    0 ≤ heightValue w h D := by
  unfold heightValue
  apply fl_nonneg
  have hr := ratioOf_pos hw hh
  have hy : 0 < fl (1 + ratioOf w h) := fl_pos (by linarith)
  have hx : 0 ≤ fl (sqrt2 * (D : ℚ)) := by
    apply fl_nonneg
    have : (0 : ℚ) ≤ D := by exact_mod_cast hD
    have := sqrt2_pos
    positivity
  positivity

/-- The rounding errors of lines 136-138 taken together: the value converted
to `shrinkSizeHeight` against the exact quotient `sqrt2 * D / (1 + w / h)`. -/
theorem heightValue_bounds {w h D : ℤ} (hw : 0 < w) (hh : 0 < h) (hD : 0 ≤ D) :
    heightValue w h D * (1 + (w : ℚ) / h) * (1 - uro) ^ 2 ≤ sqrt2 * D * (1 + uro) ^ 2 ∧
      sqrt2 * D * (1 - uro) ^ 2 ≤ heightValue w h D * (1 + (w : ℚ) / h) * (1 + uro) ^ 2 := by
  have hu0 := uro_pos
  have hu1 := uro_lt_one
  have a : (0 : ℚ) < w := by exact_mod_cast hw
  have b : (0 : ℚ) < h := by exact_mod_cast hh
  have hρ : (0 : ℚ) < (w : ℚ) / h := by positivity
  obtain ⟨r1, r2⟩ := ratioOf_bounds hw hh
  have hr := ratioOf_pos hw hh
  have hz0 := heightValue_nonneg hw hh hD
  have hSD : 0 ≤ sqrt2 * (D : ℚ) := by
    have : (0 : ℚ) ≤ D := by exact_mod_cast hD
    have := sqrt2_pos
    positivity
  have hy : 0 < fl (1 + ratioOf w h) := fl_pos (by linarith)
  have y1 := mul_le_fl (q := 1 + ratioOf w h) (by linarith)
  have y2 := fl_le_mul (q := 1 + ratioOf w h) (by linarith)
  have x0 : 0 ≤ fl (sqrt2 * (D : ℚ)) := fl_nonneg hSD
  have x1 := mul_le_fl hSD
  have x2 := fl_le_mul hSD
  have hq : 0 ≤ fl (sqrt2 * (D : ℚ)) / fl (1 + ratioOf w h) := by positivity
  have z1 := mul_le_fl hq
  have z2 := fl_le_mul hq
  have hzdef : heightValue w h D = fl (fl (sqrt2 * (D : ℚ)) / fl (1 + ratioOf w h)) := rfl
  rw [← hzdef] at z1 z2
  have e : fl (sqrt2 * (D : ℚ)) / fl (1 + ratioOf w h) * fl (1 + ratioOf w h)
      = fl (sqrt2 * (D : ℚ)) := div_mul_cancel₀ _ hy.ne'
  -- z * y against x
  have zy2 : heightValue w h D * fl (1 + ratioOf w h) ≤ fl (sqrt2 * (D : ℚ)) * (1 + uro) := by
    have := mul_le_mul_of_nonneg_right z2 hy.le
    calc heightValue w h D * fl (1 + ratioOf w h)
        ≤ fl (sqrt2 * (D : ℚ)) / fl (1 + ratioOf w h) * (1 + uro) * fl (1 + ratioOf w h) := this
      _ = fl (sqrt2 * (D : ℚ)) / fl (1 + ratioOf w h) * fl (1 + ratioOf w h) * (1 + uro) := by ring
      _ = fl (sqrt2 * (D : ℚ)) * (1 + uro) := by rw [e]
  have zy1 : fl (sqrt2 * (D : ℚ)) * (1 - uro) ≤ heightValue w h D * fl (1 + ratioOf w h) := by
    have := mul_le_mul_of_nonneg_right z1 hy.le
    calc fl (sqrt2 * (D : ℚ)) * (1 - uro)
        = fl (sqrt2 * (D : ℚ)) / fl (1 + ratioOf w h) * fl (1 + ratioOf w h) * (1 - uro) := by
          rw [e]
      _ = fl (sqrt2 * (D : ℚ)) / fl (1 + ratioOf w h) * (1 - uro) * fl (1 + ratioOf w h) := by ring
      _ ≤ heightValue w h D * fl (1 + ratioOf w h) := this
  -- y against 1 + w / h
  have ylo : (1 + (w : ℚ) / h) * (1 - uro) ^ 2 ≤ fl (1 + ratioOf w h) := by
    have : (1 + (w : ℚ) / h) * (1 - uro) ≤ 1 + ratioOf w h := by nlinarith
    have := mul_le_mul_of_nonneg_right this (by linarith : (0 : ℚ) ≤ 1 - uro)
    calc (1 + (w : ℚ) / h) * (1 - uro) ^ 2 = (1 + (w : ℚ) / h) * (1 - uro) * (1 - uro) := by ring
      _ ≤ (1 + ratioOf w h) * (1 - uro) := this
      _ ≤ _ := y1
  have yhi : fl (1 + ratioOf w h) ≤ (1 + (w : ℚ) / h) * (1 + uro) ^ 2 := by
    have : 1 + ratioOf w h ≤ (1 + (w : ℚ) / h) * (1 + uro) := by nlinarith
    have := mul_le_mul_of_nonneg_right this (by linarith : (0 : ℚ) ≤ 1 + uro)
    calc fl (1 + ratioOf w h) ≤ (1 + ratioOf w h) * (1 + uro) := y2
      _ ≤ (1 + (w : ℚ) / h) * (1 + uro) * (1 + uro) := this
      _ = _ := by ring
  constructor
  · calc heightValue w h D * (1 + (w : ℚ) / h) * (1 - uro) ^ 2
        = heightValue w h D * ((1 + (w : ℚ) / h) * (1 - uro) ^ 2) := by ring
      _ ≤ heightValue w h D * fl (1 + ratioOf w h) := mul_le_mul_of_nonneg_left ylo hz0
      _ ≤ fl (sqrt2 * (D : ℚ)) * (1 + uro) := zy2
      _ ≤ sqrt2 * D * (1 + uro) * (1 + uro) :=
        mul_le_mul_of_nonneg_right x2 (by linarith)
      _ = _ := by ring
  · calc sqrt2 * D * (1 - uro) ^ 2 = sqrt2 * D * (1 - uro) * (1 - uro) := by ring
      _ ≤ fl (sqrt2 * (D : ℚ)) * (1 - uro) := mul_le_mul_of_nonneg_right x1 (by linarith)
      _ ≤ heightValue w h D * fl (1 + ratioOf w h) := zy1
      _ ≤ heightValue w h D * ((1 + (w : ℚ) / h) * (1 + uro) ^ 2) :=
        mul_le_mul_of_nonneg_left yhi hz0
      _ = _ := by ring

theorem widthValue_nonneg {s : ℤ} {r : ℚ} (hs : 0 ≤ s) (hr : 0 ≤ r) : 0 ≤ widthValue s r := by
  unfold widthValue
  apply fl_nonneg
  have : (0 : ℚ) ≤ s := by exact_mod_cast hs
  positivity

/-- The rounding errors of lines 136 and 139 taken together. -/
theorem widthValue_bounds {w h s : ℤ} (hw : 0 < w) (hh : 0 < h) (hs : 0 ≤ s) :
    (s : ℚ) * ((w : ℚ) / h) * (1 - uro) ^ 2 ≤ widthValue s (ratioOf w h) ∧
      widthValue s (ratioOf w h) ≤ (s : ℚ) * ((w : ℚ) / h) * (1 + uro) ^ 2 := by
  have hu0 := uro_pos
  have hu1 := uro_lt_one
  have a : (0 : ℚ) < w := by exact_mod_cast hw
  have b : (0 : ℚ) < h := by exact_mod_cast hh
  have c : (0 : ℚ) ≤ s := by exact_mod_cast hs
  obtain ⟨r1, r2⟩ := ratioOf_bounds hw hh
  have hr := ratioOf_pos hw hh
  have hq : 0 ≤ (s : ℚ) * ratioOf w h := by positivity
  have t1 := mul_le_fl hq
  have t2 := fl_le_mul hq
  have htdef : widthValue s (ratioOf w h) = fl ((s : ℚ) * ratioOf w h) := rfl
  rw [← htdef] at t1 t2
  constructor
  · calc (s : ℚ) * ((w : ℚ) / h) * (1 - uro) ^ 2
        = (s : ℚ) * ((w : ℚ) / h * (1 - uro)) * (1 - uro) := by ring
      _ ≤ (s : ℚ) * ratioOf w h * (1 - uro) :=
        mul_le_mul_of_nonneg_right (mul_le_mul_of_nonneg_left r1 c) (by linarith)
      _ ≤ _ := t1
  · calc widthValue s (ratioOf w h) ≤ (s : ℚ) * ratioOf w h * (1 + uro) := t2
      _ ≤ (s : ℚ) * ((w : ℚ) / h * (1 + uro)) * (1 + uro) :=
        mul_le_mul_of_nonneg_right (mul_le_mul_of_nonneg_left r2 c) (by linarith)
      _ = _ := by ring

/-- The value converted to `shrinkSizeHeight` stays below `sqrt2 * D` up to
rounding. -/
theorem heightValue_le {w h D : ℤ} (hw : 0 < w) (hh : 0 < h) (hD : 0 ≤ D) :
    heightValue w h D * (1 - uro) ^ 2 ≤ sqrt2 * D * (1 + uro) ^ 2 := by
  have hu1 := uro_lt_one
  have a : (0 : ℚ) < w := by exact_mod_cast hw
  have b : (0 : ℚ) < h := by exact_mod_cast hh
  have hρ : (0 : ℚ) < (w : ℚ) / h := by positivity
  have hz0 := heightValue_nonneg hw hh hD
  have h1 := (heightValue_bounds hw hh hD).1
  have hk : (0 : ℚ) ≤ (1 - uro) ^ 2 := by positivity
  have : heightValue w h D * (1 - uro) ^ 2
      ≤ heightValue w h D * (1 + (w : ℚ) / h) * (1 - uro) ^ 2 := by
    apply mul_le_mul_of_nonneg_right _ hk
    nlinarith
  linarith

/-- The sum of the two values converted to the shrink size stays below
`sqrt2 * D` up to rounding. -/
theorem sum_le {w h D : ℤ} (hw : 0 < w) (hh : 0 < h) (hD : 0 ≤ D) :
    (widthValue ⌊heightValue w h D⌋ (ratioOf w h) + (⌊heightValue w h D⌋ : ℚ)) * (1 - uro) ^ 2
      ≤ sqrt2 * D * (1 + uro) ^ 4 := by
  have hu0 := uro_pos
  have hu1 := uro_lt_one
  have a : (0 : ℚ) < w := by exact_mod_cast hw
  have b : (0 : ℚ) < h := by exact_mod_cast hh
  have hρ : (0 : ℚ) < (w : ℚ) / h := by positivity
  have hz0 := heightValue_nonneg hw hh hD
  have hs0 : 0 ≤ ⌊heightValue w h D⌋ := Int.floor_nonneg.2 hz0
  have hs0' : (0 : ℚ) ≤ ⌊heightValue w h D⌋ := by exact_mod_cast hs0
  have hsz : (⌊heightValue w h D⌋ : ℚ) ≤ heightValue w h D := Int.floor_le _
  have t2 := (widthValue_bounds hw hh hs0).2
  have z1 := (heightValue_bounds hw hh hD).1
  have hk : (0 : ℚ) ≤ (1 - uro) ^ 2 := by positivity
  have hk2 : (1 : ℚ) ≤ (1 + uro) ^ 2 := by nlinarith
  have s1 : widthValue ⌊heightValue w h D⌋ (ratioOf w h) + (⌊heightValue w h D⌋ : ℚ)
      ≤ heightValue w h D * (1 + (w : ℚ) / h) * (1 + uro) ^ 2 := by
    calc widthValue ⌊heightValue w h D⌋ (ratioOf w h) + (⌊heightValue w h D⌋ : ℚ)
        ≤ (⌊heightValue w h D⌋ : ℚ) * ((w : ℚ) / h) * (1 + uro) ^ 2
          + (⌊heightValue w h D⌋ : ℚ) * (1 + uro) ^ 2 := by nlinarith
      _ = (⌊heightValue w h D⌋ : ℚ) * ((1 + (w : ℚ) / h) * (1 + uro) ^ 2) := by ring
      _ ≤ heightValue w h D * ((1 + (w : ℚ) / h) * (1 + uro) ^ 2) :=
        mul_le_mul_of_nonneg_right hsz (by positivity)
      _ = _ := by ring
  calc (widthValue ⌊heightValue w h D⌋ (ratioOf w h) + (⌊heightValue w h D⌋ : ℚ)) * (1 - uro) ^ 2
      ≤ heightValue w h D * (1 + (w : ℚ) / h) * (1 + uro) ^ 2 * (1 - uro) ^ 2 :=
        mul_le_mul_of_nonneg_right s1 hk
    _ = heightValue w h D * (1 + (w : ℚ) / h) * (1 - uro) ^ 2 * (1 + uro) ^ 2 := by ring
    _ ≤ sqrt2 * D * (1 + uro) ^ 2 * (1 + uro) ^ 2 :=
        mul_le_mul_of_nonneg_right z1 (by positivity)
    _ = _ := by ring

/-- For a source of positive size and `0 ≤ D ≤ 2^30` both conversions to
`int` are defined: the shrink size is the pair of the two floors. -/
theorem shrinkSize_eq {w h D : ℤ} (hw : 0 < w) (hh : 0 < h) (hD : 0 ≤ D) (hD2 : D ≤ 2 ^ 30) :
    shrinkSize w h D = some (⌊widthValue ⌊heightValue w h D⌋ (ratioOf w h)⌋,
      ⌊heightValue w h D⌋) := by
  have hu0 := uro_pos
  have hu1 := uro_lt_one
  have hr := ratioOf_pos hw hh
  have hy : 0 < fl (1 + ratioOf w h) := fl_pos (by linarith)
  have hz0 := heightValue_nonneg hw hh hD
  have hs0 : 0 ≤ ⌊heightValue w h D⌋ := Int.floor_nonneg.2 hz0
  have ht0 := widthValue_nonneg hs0 hr.le
  have hD' : (D : ℚ) ≤ 2 ^ 30 := by exact_mod_cast hD2
  have hk : (0 : ℚ) < (1 - uro) ^ 2 := by
    have : (0 : ℚ) < 1 - uro := by linarith
    positivity
  have c1 : sqrt2 * 2 ^ 30 * (1 + uro) ^ 4 < 2 ^ 31 * (1 - uro) ^ 2 := by
    norm_num [sqrt2, uro]
  have hSD : sqrt2 * (D : ℚ) * (1 + uro) ^ 4 ≤ sqrt2 * 2 ^ 30 * (1 + uro) ^ 4 := by
    have := sqrt2_pos
    apply mul_le_mul_of_nonneg_right _ (by positivity)
    exact mul_le_mul_of_nonneg_left hD' this.le
  have hsum := sum_le hw hh hD
  have hs0' : (0 : ℚ) ≤ ⌊heightValue w h D⌋ := by exact_mod_cast hs0
  have hz : heightValue w h D < 2 ^ 31 := by
    have h1 := heightValue_le hw hh hD
    have h2 : sqrt2 * (D : ℚ) * (1 + uro) ^ 2 ≤ sqrt2 * D * (1 + uro) ^ 4 := by
      have : (0 : ℚ) ≤ sqrt2 * D := by
        have := sqrt2_pos
        have : (0 : ℚ) ≤ D := by exact_mod_cast hD
        positivity
      have h3 : (1 + uro) ^ 2 ≤ (1 + uro) ^ 4 := by
        apply pow_le_pow_right₀ (by linarith) (by norm_num)
      exact mul_le_mul_of_nonneg_left h3 this
    have : heightValue w h D * (1 - uro) ^ 2 < 2 ^ 31 * (1 - uro) ^ 2 := by linarith
    exact lt_of_mul_lt_mul_right this hk.le
  have ht : widthValue ⌊heightValue w h D⌋ (ratioOf w h) < 2 ^ 31 := by
    have : widthValue ⌊heightValue w h D⌋ (ratioOf w h) * (1 - uro) ^ 2
        < 2 ^ 31 * (1 - uro) ^ 2 := by nlinarith
    exact lt_of_mul_lt_mul_right this hk.le
  unfold shrinkSize
  rw [if_neg hh.ne', if_neg hy.ne', toInt_of_nonneg hz0 hz]
  simp only
  rw [toInt_of_nonneg ht0 ht]

/-- For `D` up to `2^24` the rounding errors are too small to push the square
of the sum of the two floors above `2 * D^2`. -/
theorem floors_fit {w h D : ℤ} (hw : 0 < w) (hh : 0 < h) (hD : 0 ≤ D) (hD2 : D ≤ 2 ^ 24) :
    (⌊widthValue ⌊heightValue w h D⌋ (ratioOf w h)⌋ + ⌊heightValue w h D⌋) ^ 2 ≤ 2 * D ^ 2 := by
  have hu0 := uro_pos
  have hu1 := uro_lt_one
  have hr := ratioOf_pos hw hh
  have hz0 := heightValue_nonneg hw hh hD
  have hs0 : 0 ≤ ⌊heightValue w h D⌋ := Int.floor_nonneg.2 hz0
  have ht0 := widthValue_nonneg hs0 hr.le
  have hw0 : 0 ≤ ⌊widthValue ⌊heightValue w h D⌋ (ratioOf w h)⌋ := Int.floor_nonneg.2 ht0
  have hsum := sum_le hw hh hD
  have hfl : (⌊widthValue ⌊heightValue w h D⌋ (ratioOf w h)⌋ : ℚ)
      ≤ widthValue ⌊heightValue w h D⌋ (ratioOf w h) := Int.floor_le _
  generalize ⌊widthValue ⌊heightValue w h D⌋ (ratioOf w h)⌋ = sw at hw0 hfl ⊢
  generalize widthValue ⌊heightValue w h D⌋ (ratioOf w h) = t at hsum hfl
  generalize ⌊heightValue w h D⌋ = sh at hs0 hsum ⊢
  have hD0 : (0 : ℚ) ≤ D := by exact_mod_cast hD
  have hDq : (D : ℚ) ≤ 2 ^ 24 := by exact_mod_cast hD2
  have hA0 : (0 : ℚ) ≤ (sw : ℚ) + sh := by
    have : (0 : ℚ) ≤ sw := by exact_mod_cast hw0
    have : (0 : ℚ) ≤ sh := by exact_mod_cast hs0
    linarith
  have hk : (0 : ℚ) < (1 - uro) ^ 2 := by
    have : (0 : ℚ) < 1 - uro := by linarith
    positivity
  have hA : ((sw : ℚ) + sh) * (1 - uro) ^ 2 ≤ sqrt2 * D * (1 + uro) ^ 4 := by
    have : ((sw : ℚ) + sh) * (1 - uro) ^ 2 ≤ (t + sh) * (1 - uro) ^ 2 :=
      mul_le_mul_of_nonneg_right (by linarith) hk.le
    linarith
  have hsq := pow_le_pow_left₀ (mul_nonneg hA0 hk.le) hA 2
  have cst : sqrt2 ^ 2 * (1 + uro) ^ 8 ≤ 2 * (1 + 7 / 2 ^ 52) * (1 - uro) ^ 4 := by
    norm_num [sqrt2, uro]
  have hk4 : (0 : ℚ) < (1 - uro) ^ 4 := by
    have : (0 : ℚ) < 1 - uro := by linarith
    positivity
  have hDD : (D : ℚ) ^ 2 ≤ 2 ^ 48 := by
    have := pow_le_pow_left₀ hD0 hDq 2
    norm_num at this ⊢
    exact this
  have h1 : ((sw : ℚ) + sh) ^ 2 * (1 - uro) ^ 4
      ≤ (2 * (1 + 7 / 2 ^ 52) * (D : ℚ) ^ 2) * (1 - uro) ^ 4 := by
    calc ((sw : ℚ) + sh) ^ 2 * (1 - uro) ^ 4 = (((sw : ℚ) + sh) * (1 - uro) ^ 2) ^ 2 := by ring
      _ ≤ (sqrt2 * D * (1 + uro) ^ 4) ^ 2 := hsq
      _ = sqrt2 ^ 2 * (1 + uro) ^ 8 * (D : ℚ) ^ 2 := by ring
      _ ≤ 2 * (1 + 7 / 2 ^ 52) * (1 - uro) ^ 4 * (D : ℚ) ^ 2 :=
        mul_le_mul_of_nonneg_right cst (by positivity)
      _ = _ := by ring
  have h2 : ((sw : ℚ) + sh) ^ 2 ≤ 2 * (1 + 7 / 2 ^ 52) * (D : ℚ) ^ 2 :=
    le_of_mul_le_mul_right h1 hk4
  have h3 : ((sw : ℚ) + sh) ^ 2 < 2 * (D : ℚ) ^ 2 + 1 := by
    have : 2 * (1 + 7 / 2 ^ 52) * (D : ℚ) ^ 2 ≤ 2 * (D : ℚ) ^ 2 + 14 / 2 ^ 52 * 2 ^ 48 := by
      linarith
    have e : (14 : ℚ) / 2 ^ 52 * 2 ^ 48 < 1 := by norm_num
    linarith
  have h4 : (sw + sh) ^ 2 < 2 * D ^ 2 + 1 := by exact_mod_cast h3
  omega

/-- Evaluation of `fl` at a positive number, with the value in closed form. -/
theorem fl_eval_eq {q v : ℚ} (e m : ℤ) (h1 : (2 : ℚ) ^ e ≤ q) (h2 : q < 2 ^ (e + 1))
    (h3 : |q / 2 ^ (e - 52) - m| < 1 / 2) (hv : (m : ℚ) * 2 ^ (e - 52) = v) : fl q = v := by
  rw [fl_eval e m h1 h2 h3, hv]

/-- Evaluation of `toInt` at a non-negative number. -/
theorem toInt_eval {x : ℚ} (n : ℤ) (h0 : 0 ≤ n) (h1 : n < 2 ^ 31) (h2 : (n : ℚ) ≤ x)
    (h3 : x < n + 1) : toInt x = some n := by
  have hx0 : 0 ≤ x := by
    have : (0 : ℚ) ≤ n := by exact_mod_cast h0
    linarith
  have hx1 : x < 2 ^ 31 := by
    have : ((n + 1 : ℤ) : ℚ) ≤ ((2 ^ 31 : ℤ) : ℚ) := by exact_mod_cast (by omega : n + 1 ≤ 2 ^ 31)
    push_cast at this
    linarith
  rw [toInt_of_nonneg hx0 hx1]
  congr 1
  rw [Int.floor_eq_iff]
  exact ⟨h2, h3⟩

/-- Evaluation of `shrinkSize` from the values of its intermediate
`double`s. -/
theorem shrinkSize_eval (w h D : ℤ) (r y x z t : ℚ) (sw sh : ℤ) (hh : h ≠ 0)
    (hr : fl ((w : ℚ) / (h : ℚ)) = r) (hy : fl (1 + r) = y) (hy0 : y ≠ 0)
    (hx : fl (sqrt2 * (D : ℚ)) = x) (hz : fl (x / y) = z) (hsh : toInt z = some sh)
    (ht : fl ((sh : ℚ) * r) = t) (hsw : toInt t = some sw) :
    shrinkSize w h D = some (sw, sh) := by
  unfold shrinkSize heightValue widthValue ratioOf
  rw [if_neg hh, hr, hy, if_neg hy0, hx, hz, hsh]
  simp only
  rw [ht, hsw]

theorem fl_intCast_of_nonneg {n : ℤ} (h0 : 0 ≤ n) (h : n < 2 ^ 53) : fl (n : ℚ) = n := by
  obtain ⟨k, rfl⟩ := Int.eq_ofNat_of_zero_le h0
  have hk : k < 2 ^ 53 := by exact_mod_cast h
  have := fl_natCast k hk
  simpa using this

/-- A square source: the `double` named `ratio` is exactly one. -/
theorem ratioOf_self {w : ℤ} (hw : w ≠ 0) : ratioOf w w = 1 := by
  unfold ratioOf
  have : (w : ℚ) ≠ 0 := by exact_mod_cast hw
  rw [div_self this, fl_one]

/-- A square source and any positive `int` destination size: both shrink
dimensions are the floor of `fl (fl (sqrt2 * D) / 2)`. -/
theorem shrinkSize_self {w D : ℤ} (hw : w ≠ 0) (hD : 0 < D) (hD2 : D < 2 ^ 31) :
    shrinkSize w w D = some (⌊heightValue w w D⌋, ⌊heightValue w w D⌋) := by
  have hu0 := uro_pos
  have hD0 : (0 : ℚ) < D := by exact_mod_cast hD
  have hDq : (D : ℚ) ≤ 2 ^ 31 := by exact_mod_cast hD2.le
  have hS := sqrt2_pos
  have hy : fl (1 + ratioOf w w) = 2 := by
    rw [ratioOf_self hw]
    norm_num
    exact fl_two
  have hx0 : 0 ≤ fl (sqrt2 * (D : ℚ)) := fl_nonneg (by positivity)
  have e : heightValue w w D = fl (fl (sqrt2 * (D : ℚ)) / 2) := by
    unfold heightValue
    rw [hy]
  have hz0 : 0 ≤ heightValue w w D := by
    rw [e]
    exact fl_nonneg (by positivity)
  have hs0 : 0 ≤ ⌊heightValue w w D⌋ := Int.floor_nonneg.2 hz0
  have hz : heightValue w w D < 2 ^ 31 := by
    have hx := fl_le_mul (q := sqrt2 * (D : ℚ)) (by positivity)
    have hq := fl_le_mul (q := fl (sqrt2 * (D : ℚ)) / 2) (by positivity)
    rw [e]
    have c : sqrt2 * 2 ^ 31 * (1 + uro) * (1 + uro) / 2 < 2 ^ 31 := by norm_num [sqrt2, uro]
    have h1 : fl (sqrt2 * (D : ℚ)) / 2 * (1 + uro)
        ≤ sqrt2 * 2 ^ 31 * (1 + uro) * (1 + uro) / 2 := by
      have : sqrt2 * (D : ℚ) ≤ sqrt2 * 2 ^ 31 := mul_le_mul_of_nonneg_left hDq hS.le
      nlinarith
    linarith
  have hs1 : ⌊heightValue w w D⌋ < 2 ^ 31 := by
    rw [Int.floor_lt]
    push_cast
    exact hz
  have ht : widthValue ⌊heightValue w w D⌋ (ratioOf w w) = (⌊heightValue w w D⌋ : ℚ) := by
    unfold widthValue
    rw [ratioOf_self hw, mul_one]
    exact fl_intCast_of_nonneg hs0 (by omega)
  unfold shrinkSize
  rw [if_neg hw, hy, if_neg (by norm_num), toInt_of_nonneg hz0 hz]
  simp only
  rw [ht, toInt_eval ⌊heightValue w w D⌋ hs0 hs1 le_rfl (by linarith)]

/-- A source at least as wide as tall with `w ≤ (D - 1) * h`: both values
converted to the shrink size are at least one. -/
theorem values_ge_one {w h D : ℤ} (hh : 0 < h) (hwh : h ≤ w) (hD2 : D ≤ 2 ^ 30)
    (hr : w ≤ (D - 1) * h) :
    1 ≤ heightValue w h D ∧ 1 ≤ widthValue ⌊heightValue w h D⌋ (ratioOf w h) := by
  have hw : 0 < w := lt_of_lt_of_le hh hwh
  have a : (0 : ℚ) < w := by exact_mod_cast hw
  have b : (0 : ℚ) < h := by exact_mod_cast hh
  have hD1 : 1 ≤ D - 1 := by
    by_contra hc
    have : D - 1 ≤ 0 := by omega
    have : (D - 1) * h ≤ 0 := mul_nonpos_of_nonpos_of_nonneg this hh.le
    omega
  have r1 : 1 ≤ ratioOf w h := by
    have : (1 : ℚ) ≤ (w : ℚ) / h := by
      rw [le_div_iff₀ b]
      have : (h : ℚ) ≤ w := by exact_mod_cast hwh
      linarith
    have := fl_mono (by norm_num) this
    rwa [fl_one] at this
  have r2 : ratioOf w h ≤ ((D - 1 : ℤ) : ℚ) := by
    have : (w : ℚ) / h ≤ ((D - 1 : ℤ) : ℚ) := by
      rw [div_le_iff₀ b]
      exact_mod_cast hr
    have := fl_mono (by positivity) this
    rwa [fl_intCast_of_nonneg (by omega) (by omega)] at this
  have y1 : fl (1 + ratioOf w h) ≤ (D : ℚ) := by
    have : 1 + ratioOf w h ≤ (D : ℚ) := by
      push_cast at r2
      linarith
    have := fl_mono (by linarith) this
    rwa [fl_intCast_of_nonneg (by omega) (by omega)] at this
  have y0 : 0 < fl (1 + ratioOf w h) := fl_pos (by linarith)
  have x1 : (D : ℚ) ≤ fl (sqrt2 * (D : ℚ)) := by
    have hD0 : (0 : ℚ) ≤ D := by exact_mod_cast (by omega : 0 ≤ D)
    have : (D : ℚ) ≤ sqrt2 * D := by
      have : (1 : ℚ) ≤ sqrt2 := by norm_num [sqrt2]
      nlinarith
    have := fl_mono hD0 this
    rwa [fl_intCast_of_nonneg (by omega) (by omega)] at this
  have z1 : 1 ≤ heightValue w h D := by
    have : (1 : ℚ) ≤ fl (sqrt2 * (D : ℚ)) / fl (1 + ratioOf w h) := by
      rw [le_div_iff₀ y0]
      linarith
    have := fl_mono (by norm_num) this
    rwa [fl_one] at this
  refine ⟨z1, ?_⟩
  have s1 : (1 : ℚ) ≤ ⌊heightValue w h D⌋ := by
    have : (1 : ℤ) ≤ ⌊heightValue w h D⌋ := by
      rw [Int.le_floor]
      exact_mod_cast z1
    exact_mod_cast this
  have : (1 : ℚ) ≤ (⌊heightValue w h D⌋ : ℚ) * ratioOf w h := by nlinarith
  have := fl_mono (by norm_num) this
  rw [fl_one] at this
  exact this

/-- The constant `sqrt2` against the square root of two: it is the nearest
binary64 number, and lies above it. -/
theorem sqrt2_bounds : Real.sqrt 2 ≤ (sqrt2 : ℝ) ∧ (sqrt2 : ℝ) ≤ Real.sqrt 2 * (1 + (uro : ℝ)) := by
  have hS : (0 : ℝ) < (sqrt2 : ℝ) := by exact_mod_cast sqrt2_pos
  have hu : (0 : ℝ) < 1 + (uro : ℝ) := by
    have : (0 : ℝ) < (uro : ℝ) := by exact_mod_cast uro_pos
    linarith
  constructor
  · rw [Real.sqrt_le_left hS.le]
    have : (2 : ℚ) ≤ sqrt2 ^ 2 := by norm_num [sqrt2]
    exact_mod_cast this
  · rw [← div_le_iff₀ hu]
    apply Real.le_sqrt_of_sq_le
    rw [div_pow, div_le_iff₀ (by positivity)]
    have : sqrt2 ^ 2 ≤ 2 * (1 + uro) ^ 2 := by norm_num [sqrt2, uro]
    exact_mod_cast this

/-- The constant `sqrt2` is the binary64 number nearest to the square root of
two: the numbers half a unit in the last place below and above it have
squares below and above two. -/
theorem sqrt2_nearest : (sqrt2 - 1 / 2 ^ 53) ^ 2 < 2 ∧ 2 < (sqrt2 + 1 / 2 ^ 53) ^ 2 := by
  constructor <;> norm_num [sqrt2]

/-- The value converted to `shrinkSizeHeight` is less than one away from the
exact quotient `√2 * D / (1 + w / h)`. -/
theorem heightValue_near {w h D : ℤ} (hw : 0 < w) (hh : 0 < h) (hD : 0 ≤ D) (hD2 : D ≤ 2 ^ 30) :
    (heightValue w h D : ℝ) < Real.sqrt 2 * D / (1 + (w : ℝ) / h) + 1 ∧
      Real.sqrt 2 * D / (1 + (w : ℝ) / h) - 1 < (heightValue w h D : ℝ) := by
  obtain ⟨b1, b2⟩ := heightValue_bounds hw hh hD
  obtain ⟨s1, s2⟩ := sqrt2_bounds
  have hz0 : (0 : ℝ) ≤ (heightValue w h D : ℝ) := by exact_mod_cast heightValue_nonneg hw hh hD
  have a : (0 : ℝ) < w := by exact_mod_cast hw
  have b : (0 : ℝ) < h := by exact_mod_cast hh
  have hD0 : (0 : ℝ) ≤ D := by exact_mod_cast hD
  have hDq : (D : ℝ) ≤ 2 ^ 30 := by exact_mod_cast hD2
  have hu : ((uro : ℚ) : ℝ) = 1 / 2 ^ 53 := by norm_num [uro]
  have hP : (1 : ℝ) ≤ 1 + (w : ℝ) / h := by
    have : (0 : ℝ) ≤ (w : ℝ) / h := by positivity
    linarith
  have hP0 : (0 : ℝ) < 1 + (w : ℝ) / h := by linarith
  have c1 : (heightValue w h D : ℝ) * (1 + (w : ℝ) / h) * (1 - (uro : ℝ)) ^ 2
      ≤ (sqrt2 : ℝ) * D * (1 + (uro : ℝ)) ^ 2 := by exact_mod_cast b1
  have c2 : (sqrt2 : ℝ) * D * (1 - (uro : ℝ)) ^ 2
      ≤ (heightValue w h D : ℝ) * (1 + (w : ℝ) / h) * (1 + (uro : ℝ)) ^ 2 := by exact_mod_cast b2
  have h2pos : (0 : ℝ) ≤ Real.sqrt 2 := Real.sqrt_nonneg 2
  have h2le : Real.sqrt 2 ≤ 3 / 2 := by
    rw [Real.sqrt_le_left (by norm_num)]
    norm_num
  set V : ℝ := Real.sqrt 2 * D / (1 + (w : ℝ) / h) with hV
  have hVP : V * (1 + (w : ℝ) / h) = Real.sqrt 2 * D := by
    rw [hV]
    field_simp
  have hV0 : 0 ≤ V := by
    rw [hV]
    positivity
  have hVle : V ≤ 3 * 2 ^ 29 := by
    have : V ≤ V * (1 + (w : ℝ) / h) := le_mul_of_one_le_right hV0 hP
    have : Real.sqrt 2 * D ≤ 3 / 2 * 2 ^ 30 := by nlinarith
    linarith
  -- cancel the factor 1 + w / h
  have u1 : (heightValue w h D : ℝ) * (1 - (uro : ℝ)) ^ 2 ≤ V * (1 + (uro : ℝ)) ^ 3 := by
    have : (heightValue w h D : ℝ) * (1 - (uro : ℝ)) ^ 2 * (1 + (w : ℝ) / h)
        ≤ V * (1 + (uro : ℝ)) ^ 3 * (1 + (w : ℝ) / h) := by
      calc (heightValue w h D : ℝ) * (1 - (uro : ℝ)) ^ 2 * (1 + (w : ℝ) / h)
          = (heightValue w h D : ℝ) * (1 + (w : ℝ) / h) * (1 - (uro : ℝ)) ^ 2 := by ring
        _ ≤ (sqrt2 : ℝ) * D * (1 + (uro : ℝ)) ^ 2 := c1
        _ ≤ Real.sqrt 2 * (1 + (uro : ℝ)) * D * (1 + (uro : ℝ)) ^ 2 := by
          apply mul_le_mul_of_nonneg_right _ (by positivity)
          exact mul_le_mul_of_nonneg_right s2 hD0
        _ = V * (1 + (w : ℝ) / h) * (1 + (uro : ℝ)) ^ 3 := by rw [hVP]; ring
        _ = _ := by ring
    exact le_of_mul_le_mul_right this hP0
  have u2 : V * (1 - (uro : ℝ)) ^ 2 ≤ (heightValue w h D : ℝ) * (1 + (uro : ℝ)) ^ 2 := by
    have : V * (1 - (uro : ℝ)) ^ 2 * (1 + (w : ℝ) / h)
        ≤ (heightValue w h D : ℝ) * (1 + (uro : ℝ)) ^ 2 * (1 + (w : ℝ) / h) := by
      calc V * (1 - (uro : ℝ)) ^ 2 * (1 + (w : ℝ) / h)
          = V * (1 + (w : ℝ) / h) * (1 - (uro : ℝ)) ^ 2 := by ring
        _ = Real.sqrt 2 * D * (1 - (uro : ℝ)) ^ 2 := by rw [hVP]
        _ ≤ (sqrt2 : ℝ) * D * (1 - (uro : ℝ)) ^ 2 := by
          apply mul_le_mul_of_nonneg_right _ (by positivity)
          exact mul_le_mul_of_nonneg_right s1 hD0
        _ ≤ (heightValue w h D : ℝ) * (1 + (w : ℝ) / h) * (1 + (uro : ℝ)) ^ 2 := c2
        _ = _ := by ring
    exact le_of_mul_le_mul_right this hP0
  rw [hu] at u1 u2
  norm_num at u1 u2
  constructor <;> linarith

theorem floor_near {α : Type*} [LinearOrderedField α] [FloorRing α] {a b : α}
    (h1 : a < b + 1) (h2 : b - 1 < a) : |⌊a⌋ - ⌊b⌋| ≤ 1 := by
  have u1 : ⌊a⌋ ≤ ⌊b⌋ + 1 := by
    have := Int.floor_mono h1.le
    rwa [Int.floor_add_one] at this
  have u2 : ⌊b⌋ - 1 ≤ ⌊a⌋ := by
    have := Int.floor_mono h2.le
    rwa [Int.floor_sub_one] at this
  rw [abs_le]
  constructor <;> omega

/-- The value converted to `shrinkSizeWidth` is less than one away from the
exact product `shrinkSizeHeight * (w / h)`. -/
theorem widthValue_near {w h D : ℤ} (hw : 0 < w) (hh : 0 < h) (hD : 0 ≤ D) (hD2 : D ≤ 2 ^ 30) :
    widthValue ⌊heightValue w h D⌋ (ratioOf w h)
        < (⌊heightValue w h D⌋ : ℚ) * ((w : ℚ) / h) + 1 ∧
      (⌊heightValue w h D⌋ : ℚ) * ((w : ℚ) / h) - 1
        < widthValue ⌊heightValue w h D⌋ (ratioOf w h) := by
  have hz0 := heightValue_nonneg hw hh hD
  have hs0 : 0 ≤ ⌊heightValue w h D⌋ := Int.floor_nonneg.2 hz0
  have hs0' : (0 : ℚ) ≤ ⌊heightValue w h D⌋ := by exact_mod_cast hs0
  obtain ⟨t1, t2⟩ := widthValue_bounds hw hh hs0
  have hsum := sum_le hw hh hD
  have a : (0 : ℚ) < w := by exact_mod_cast hw
  have b : (0 : ℚ) < h := by exact_mod_cast hh
  have hX0 : 0 ≤ (⌊heightValue w h D⌋ : ℚ) * ((w : ℚ) / h) := by positivity
  have hD0 : (0 : ℚ) ≤ D := by exact_mod_cast hD
  have hDq : (D : ℚ) ≤ 2 ^ 30 := by exact_mod_cast hD2
  have hu : uro = 1 / 2 ^ 53 := rfl
  have hS : sqrt2 = 6369051672525773 / 2 ^ 52 := rfl
  generalize widthValue ⌊heightValue w h D⌋ (ratioOf w h) = t at t1 t2 hsum ⊢
  generalize (⌊heightValue w h D⌋ : ℚ) * ((w : ℚ) / h) = X at t1 t2 hX0 ⊢
  generalize (⌊heightValue w h D⌋ : ℚ) = s at hs0' hsum
  rw [hu] at t1 t2 hsum
  rw [hS] at hsum
  norm_num at t1 t2 hsum
  constructor <;> linarith

/-! ## Shrink size: when the formula is met exactly -/

/-- Twice a non-zero square is not a square. -/
theorem sq_ne_two_mul_sq (a b : ℤ) (hb : b ≠ 0) : a ^ 2 ≠ 2 * b ^ 2 := by
  intro h
  have hb' : (b : ℝ) ≠ 0 := by exact_mod_cast hb
  have h1 : ((a : ℝ) / b) ^ 2 = 2 := by
    rw [div_pow, div_eq_iff (by positivity)]
    exact_mod_cast h
  have h2 : Real.sqrt 2 = |(a : ℝ) / b| := by
    rw [← h1, Real.sqrt_sq_eq_abs]
  have h3 : |(a : ℝ) / b| = (((|(a : ℚ) / b| : ℚ)) : ℝ) := by
    push_cast
    rfl
  exact irrational_sqrt_two.ne_rat _ (h2.trans h3)

/-- Integer form of `⌊√2 * D / (1 + w / h)⌋ = e`: the squares of `e * (w + h)`
and `(e + 1) * (w + h)` lie strictly on either side of `2 * (D * h)^2`. -/
theorem exact_height_squares {w h D : ℤ} (hw : 0 < w) (hh : 0 < h) (hD : 0 < D) :
    (⌊Real.sqrt 2 * (D : ℝ) / (1 + (w : ℝ) / (h : ℝ))⌋ * (w + h)) ^ 2 + 1 ≤ 2 * (D * h) ^ 2 ∧
      2 * (D * h) ^ 2 + 1
        ≤ ((⌊Real.sqrt 2 * (D : ℝ) / (1 + (w : ℝ) / (h : ℝ))⌋ + 1) * (w + h)) ^ 2 ∧
      0 ≤ ⌊Real.sqrt 2 * (D : ℝ) / (1 + (w : ℝ) / (h : ℝ))⌋ := by
  have a : (0 : ℝ) < w := by exact_mod_cast hw
  have b : (0 : ℝ) < h := by exact_mod_cast hh
  have c : (0 : ℝ) < D := by exact_mod_cast hD
  have h2pos : (0 : ℝ) ≤ Real.sqrt 2 := Real.sqrt_nonneg 2
  have hsq : Real.sqrt 2 ^ 2 = 2 := Real.sq_sqrt (by norm_num)
  set V : ℝ := Real.sqrt 2 * (D : ℝ) / (1 + (w : ℝ) / (h : ℝ)) with hV
  have hV0 : 0 ≤ V := by
    rw [hV]
    positivity
  have hVM : V * ((w : ℝ) + h) = Real.sqrt 2 * (D * h) := by
    rw [hV]
    field_simp
    ring
  have he0 : 0 ≤ ⌊V⌋ := Int.floor_nonneg.2 hV0
  have he0' : (0 : ℝ) ≤ (⌊V⌋ : ℝ) := by exact_mod_cast he0
  have f1 : (⌊V⌋ : ℝ) ≤ V := Int.floor_le V
  have f2 : V < (⌊V⌋ : ℝ) + 1 := Int.lt_floor_add_one V
  have hM : (0 : ℝ) < (w : ℝ) + h := by linarith
  have hsq2 : (Real.sqrt 2 * ((D : ℝ) * h)) ^ 2 = 2 * ((D : ℝ) * h) ^ 2 := by
    rw [mul_pow, hsq]
  have g1 : ((⌊V⌋ : ℝ) * ((w : ℝ) + h)) ^ 2 ≤ 2 * ((D : ℝ) * h) ^ 2 := by
    have : (⌊V⌋ : ℝ) * ((w : ℝ) + h) ≤ Real.sqrt 2 * (D * h) := by
      rw [← hVM]
      exact mul_le_mul_of_nonneg_right f1 hM.le
    have := pow_le_pow_left₀ (by positivity) this 2
    rwa [hsq2] at this
  have g2 : 2 * ((D : ℝ) * h) ^ 2 < (((⌊V⌋ : ℝ) + 1) * ((w : ℝ) + h)) ^ 2 := by
    have : Real.sqrt 2 * (D * h) < ((⌊V⌋ : ℝ) + 1) * ((w : ℝ) + h) := by
      rw [← hVM]
      exact mul_lt_mul_of_pos_right f2 hM
    have := pow_lt_pow_left₀ this (by positivity) (by norm_num : (2 : ℕ) ≠ 0)
    rwa [hsq2] at this
  have g1' : (⌊V⌋ * (w + h)) ^ 2 ≤ 2 * (D * h) ^ 2 := by exact_mod_cast g1
  have g2' : 2 * (D * h) ^ 2 < ((⌊V⌋ + 1) * (w + h)) ^ 2 := by exact_mod_cast g2
  have hne : (⌊V⌋ * (w + h)) ^ 2 ≠ 2 * (D * h) ^ 2 :=
    sq_ne_two_mul_sq _ _ (mul_ne_zero hD.ne' hh.ne')
  refine ⟨?_, ?_, he0⟩
  · omega
  · omega

/-- For `D * h ≤ 2^24` the rounding errors cannot move the value converted to
`shrinkSizeHeight` across an integer: its floor is the floor of the exact
quotient. -/
theorem height_exact {w h D : ℤ} (hw : 0 < w) (hh : 0 < h) (hD : 0 < D)
    (hDh : D * h ≤ 2 ^ 24) :
    ⌊heightValue w h D⌋ = ⌊Real.sqrt 2 * (D : ℝ) / (1 + (w : ℝ) / (h : ℝ))⌋ := by
  obtain ⟨e1, e2, e0⟩ := exact_height_squares hw hh hD
  obtain ⟨b1, b2⟩ := heightValue_bounds hw hh hD.le
  have hz0 := heightValue_nonneg hw hh hD.le
  generalize ⌊Real.sqrt 2 * (D : ℝ) / (1 + (w : ℝ) / (h : ℝ))⌋ = e at e1 e2 e0 ⊢
  generalize heightValue w h D = z at b1 b2 hz0 ⊢
  have a : (0 : ℚ) < w := by exact_mod_cast hw
  have b : (0 : ℚ) < h := by exact_mod_cast hh
  have c : (0 : ℚ) < D := by exact_mod_cast hD
  have he : (0 : ℚ) ≤ e := by exact_mod_cast e0
  have hu0 := uro_pos
  have hu1 := uro_lt_one
  have hS := sqrt2_pos
  have hk : (0 : ℚ) < 1 - uro := by linarith
  -- the bounds with the factor `h` multiplied in
  have hM : (1 + (w : ℚ) / h) * h = w + h := by
    field_simp
    ring
  have c1 : z * ((w : ℚ) + h) * (1 - uro) ^ 2 ≤ sqrt2 * (D * h) * (1 + uro) ^ 2 := by
    have := mul_le_mul_of_nonneg_right b1 b.le
    calc z * ((w : ℚ) + h) * (1 - uro) ^ 2 = z * ((1 + (w : ℚ) / h) * h) * (1 - uro) ^ 2 := by
          rw [hM]
      _ = z * (1 + (w : ℚ) / h) * (1 - uro) ^ 2 * h := by ring
      _ ≤ sqrt2 * D * (1 + uro) ^ 2 * h := this
      _ = _ := by ring
  have c2 : sqrt2 * (D * h) * (1 - uro) ^ 2 ≤ z * ((w : ℚ) + h) * (1 + uro) ^ 2 := by
    have := mul_le_mul_of_nonneg_right b2 b.le
    calc sqrt2 * (D * h) * (1 - uro) ^ 2 = sqrt2 * D * (1 - uro) ^ 2 * h := by ring
      _ ≤ z * (1 + (w : ℚ) / h) * (1 + uro) ^ 2 * h := this
      _ = z * ((1 + (w : ℚ) / h) * h) * (1 + uro) ^ 2 := by ring
      _ = _ := by rw [hM]
  have hK : ((D : ℚ) * h) ^ 2 ≤ 2 ^ 48 := by
    have h1 : ((D : ℚ) * h) ≤ 2 ^ 24 := by exact_mod_cast hDh
    have := pow_le_pow_left₀ (by positivity) h1 2
    norm_num at this ⊢
    exact this
  have hK0 : (0 : ℚ) ≤ ((D : ℚ) * h) ^ 2 := by positivity
  have q1 : ((e : ℚ) * ((w : ℚ) + h)) ^ 2 + 1 ≤ 2 * ((D : ℚ) * h) ^ 2 := by exact_mod_cast e1
  have q2 : 2 * ((D : ℚ) * h) ^ 2 + 1 ≤ (((e : ℚ) + 1) * ((w : ℚ) + h)) ^ 2 := by
    exact_mod_cast e2
  have s1 : (2 : ℚ) ≤ sqrt2 ^ 2 := by norm_num [sqrt2]
  have s2 : sqrt2 ^ 2 ≤ 2 * (1 + uro) ^ 2 := by norm_num [sqrt2, uro]
  have hu : uro = 1 / 2 ^ 53 := rfl
  rw [Int.floor_eq_iff]
  constructor
  · -- `e ≤ z`
    by_contra hc
    push_neg at hc
    have l1 : sqrt2 * (D * h) * (1 - uro) ^ 2 < (e : ℚ) * ((w : ℚ) + h) * (1 + uro) ^ 2 := by
      have : z * ((w : ℚ) + h) * (1 + uro) ^ 2 < (e : ℚ) * ((w : ℚ) + h) * (1 + uro) ^ 2 := by
        apply mul_lt_mul_of_pos_right _ (by positivity)
        exact mul_lt_mul_of_pos_right hc (by linarith)
      linarith
    have l2 := pow_lt_pow_left₀ l1 (by positivity) (by norm_num : (2 : ℕ) ≠ 0)
    have l3 : 2 * ((D : ℚ) * h) ^ 2 * (1 - uro) ^ 4
        < (2 * ((D : ℚ) * h) ^ 2 - 1) * (1 + uro) ^ 4 := by
      calc 2 * ((D : ℚ) * h) ^ 2 * (1 - uro) ^ 4
          ≤ sqrt2 ^ 2 * ((D : ℚ) * h) ^ 2 * (1 - uro) ^ 4 := by
            apply mul_le_mul_of_nonneg_right _ (by positivity)
            exact mul_le_mul_of_nonneg_right s1 hK0
        _ = (sqrt2 * (D * h) * (1 - uro) ^ 2) ^ 2 := by ring
        _ < ((e : ℚ) * ((w : ℚ) + h) * (1 + uro) ^ 2) ^ 2 := l2
        _ = ((e : ℚ) * ((w : ℚ) + h)) ^ 2 * (1 + uro) ^ 4 := by ring
        _ ≤ (2 * ((D : ℚ) * h) ^ 2 - 1) * (1 + uro) ^ 4 := by
            apply mul_le_mul_of_nonneg_right _ (by positivity)
            linarith
    generalize ((D : ℚ) * h) ^ 2 = K at hK hK0 l3
    rw [hu] at l3
    norm_num at l3
    linarith
  · -- `z < e + 1`
    by_contra hc
    push_neg at hc
    have l1 : ((e : ℚ) + 1) * ((w : ℚ) + h) * (1 - uro) ^ 2 ≤ sqrt2 * (D * h) * (1 + uro) ^ 2 := by
      have : ((e : ℚ) + 1) * ((w : ℚ) + h) * (1 - uro) ^ 2
          ≤ z * ((w : ℚ) + h) * (1 - uro) ^ 2 := by
        apply mul_le_mul_of_nonneg_right _ (by positivity)
        exact mul_le_mul_of_nonneg_right hc (by linarith)
      linarith
    have l2 := pow_le_pow_left₀ (by positivity) l1 2
    have l3 : (2 * ((D : ℚ) * h) ^ 2 + 1) * (1 - uro) ^ 4
        ≤ 2 * ((D : ℚ) * h) ^ 2 * (1 + uro) ^ 6 := by
      calc (2 * ((D : ℚ) * h) ^ 2 + 1) * (1 - uro) ^ 4
          ≤ (((e : ℚ) + 1) * ((w : ℚ) + h)) ^ 2 * (1 - uro) ^ 4 :=
            mul_le_mul_of_nonneg_right q2 (by positivity)
        _ = (((e : ℚ) + 1) * ((w : ℚ) + h) * (1 - uro) ^ 2) ^ 2 := by ring
        _ ≤ (sqrt2 * (D * h) * (1 + uro) ^ 2) ^ 2 := l2
        _ = sqrt2 ^ 2 * (((D : ℚ) * h) ^ 2 * (1 + uro) ^ 4) := by ring
        _ ≤ 2 * (1 + uro) ^ 2 * (((D : ℚ) * h) ^ 2 * (1 + uro) ^ 4) :=
            mul_le_mul_of_nonneg_right s2 (by positivity)
        _ = _ := by ring
    generalize ((D : ℚ) * h) ^ 2 = K at hK hK0 l3
    rw [hu] at l3
    norm_num at l3
    linarith

/-- For `D * h ≤ 2^24` the shrink width is the floor of the exact product
`shrinkSizeHeight * (w / h)`, or one less than it; one less only when the
product is an integer. -/
theorem width_sharp {w h D : ℤ} (hw : 0 < w) (hh : 0 < h) (hD : 0 < D)
    (hDh : D * h ≤ 2 ^ 24) :
    ⌊widthValue ⌊heightValue w h D⌋ (ratioOf w h)⌋
        = ⌊(⌊heightValue w h D⌋ : ℚ) * ((w : ℚ) / h)⌋ ∨
      (h ∣ ⌊heightValue w h D⌋ * w ∧
        ⌊widthValue ⌊heightValue w h D⌋ (ratioOf w h)⌋
          = ⌊(⌊heightValue w h D⌋ : ℚ) * ((w : ℚ) / h)⌋ - 1) := by
  have hz0 := heightValue_nonneg hw hh hD.le
  have hs0 : 0 ≤ ⌊heightValue w h D⌋ := Int.floor_nonneg.2 hz0
  obtain ⟨t1, t2⟩ := widthValue_bounds hw hh hs0
  have hsum := sum_le hw hh hD.le
  generalize widthValue ⌊heightValue w h D⌋ (ratioOf w h) = t at t1 t2 hsum ⊢
  generalize ⌊heightValue w h D⌋ = sh at hs0 t1 t2 hsum ⊢
  have a : (0 : ℚ) < w := by exact_mod_cast hw
  have b : (0 : ℚ) < h := by exact_mod_cast hh
  have c : (0 : ℚ) < D := by exact_mod_cast hD
  have hsq : (0 : ℚ) ≤ sh := by exact_mod_cast hs0
  have hu0 := uro_pos
  have hu1 := uro_lt_one
  have hu : uro = 1 / 2 ^ 53 := rfl
  have hS : sqrt2 = 6369051672525773 / 2 ^ 52 := rfl
  have hXh : (sh : ℚ) * ((w : ℚ) / h) * h = ((sh * w : ℤ) : ℚ) := by
    push_cast
    field_simp
  have f1 : ((⌊(sh : ℚ) * ((w : ℚ) / h)⌋ : ℤ) : ℚ) ≤ (sh : ℚ) * ((w : ℚ) / h) := Int.floor_le _
  have f2 : (sh : ℚ) * ((w : ℚ) / h) < ((⌊(sh : ℚ) * ((w : ℚ) / h)⌋ : ℤ) : ℚ) + 1 :=
    Int.lt_floor_add_one _
  have hn0 : 0 ≤ ⌊(sh : ℚ) * ((w : ℚ) / h)⌋ := Int.floor_nonneg.2 (by positivity)
  generalize ⌊(sh : ℚ) * ((w : ℚ) / h)⌋ = n at f1 f2 hn0 ⊢
  -- the integer inequalities `n * h ≤ sh * w < (n + 1) * h`
  have i1 : n * h ≤ sh * w := by
    have : (n : ℚ) * h ≤ ((sh * w : ℤ) : ℚ) := by
      rw [← hXh]
      exact mul_le_mul_of_nonneg_right f1 b.le
    exact_mod_cast this
  have i2 : sh * w + 1 ≤ (n + 1) * h := by
    have : ((sh * w : ℤ) : ℚ) < ((n : ℚ) + 1) * h := by
      rw [← hXh]
      exact mul_lt_mul_of_pos_right f2 b
    have : sh * w < (n + 1) * h := by exact_mod_cast this
    omega
  -- the same with `t * h`
  have T1 : ((sh * w : ℤ) : ℚ) * (1 - uro) ^ 2 ≤ t * h := by
    have := mul_le_mul_of_nonneg_right t1 b.le
    calc ((sh * w : ℤ) : ℚ) * (1 - uro) ^ 2 = (sh : ℚ) * ((w : ℚ) / h) * h * (1 - uro) ^ 2 := by
          rw [hXh]
      _ = (sh : ℚ) * ((w : ℚ) / h) * (1 - uro) ^ 2 * h := by ring
      _ ≤ t * h := this
  have T2 : t * h ≤ ((sh * w : ℤ) : ℚ) * (1 + uro) ^ 2 := by
    have := mul_le_mul_of_nonneg_right t2 b.le
    calc t * h ≤ (sh : ℚ) * ((w : ℚ) / h) * (1 + uro) ^ 2 * h := this
      _ = (sh : ℚ) * ((w : ℚ) / h) * h * (1 + uro) ^ 2 := by ring
      _ = _ := by rw [hXh]
  have T3 : t * h * (1 - uro) ^ 2 ≤ sqrt2 * 2 ^ 24 * (1 + uro) ^ 4 := by
    have hk : (0 : ℚ) ≤ (1 - uro) ^ 2 := by positivity
    have h1 : t * (1 - uro) ^ 2 ≤ sqrt2 * D * (1 + uro) ^ 4 := by nlinarith
    have h2 := mul_le_mul_of_nonneg_right h1 b.le
    have h3 : ((D : ℚ) * h) ≤ 2 ^ 24 := by exact_mod_cast hDh
    have h4 : sqrt2 * ((D : ℚ) * h) * (1 + uro) ^ 4 ≤ sqrt2 * 2 ^ 24 * (1 + uro) ^ 4 := by
      apply mul_le_mul_of_nonneg_right _ (by positivity)
      exact mul_le_mul_of_nonneg_left h3 sqrt2_pos.le
    calc t * h * (1 - uro) ^ 2 = t * (1 - uro) ^ 2 * h := by ring
      _ ≤ sqrt2 * D * (1 + uro) ^ 4 * h := h2
      _ = sqrt2 * ((D : ℚ) * h) * (1 + uro) ^ 4 := by ring
      _ ≤ _ := h4
  have hh24 : (h : ℚ) ≤ 2 ^ 24 := by
    have : h ≤ D * h := by nlinarith
    exact_mod_cast this.trans hDh
  have hh1 : (1 : ℚ) ≤ h := by exact_mod_cast hh
  have q1 : (n : ℚ) * h ≤ ((sh * w : ℤ) : ℚ) := by exact_mod_cast i1
  have q2 : ((sh * w : ℤ) : ℚ) + 1 ≤ ((n : ℚ) + 1) * h := by exact_mod_cast i2
  have qn : (0 : ℚ) ≤ (n : ℚ) * h := by
    have : (0 : ℚ) ≤ n := by exact_mod_cast hn0
    positivity
  have qY : (0 : ℚ) ≤ ((sh * w : ℤ) : ℚ) := by
    push_cast
    positivity
  have q3 : ¬ h ∣ sh * w → (n : ℚ) * h + 1 ≤ ((sh * w : ℤ) : ℚ) := by
    intro hdiv
    have : n * h ≠ sh * w := by
      intro he
      exact hdiv ⟨n, by rw [← he]; ring⟩
    have i3 : n * h + 1 ≤ sh * w := by omega
    exact_mod_cast i3
  generalize ((sh * w : ℤ) : ℚ) = Y at T1 T2 q1 q2 qY q3
  rw [hu] at T1 T2 T3
  rw [hS] at T3
  norm_num at T1 T2 T3
  -- the floor is at most `n`
  have up : ⌊t⌋ ≤ n := by
    have : t * h < ((n : ℚ) + 1) * h := by linarith
    have : t < ((n + 1 : ℤ) : ℚ) := by
      push_cast
      exact lt_of_mul_lt_mul_right this b.le
    have := Int.floor_lt.2 this
    omega
  -- and at least `n - 1`
  have lo : n - 1 ≤ ⌊t⌋ := by
    rw [Int.le_floor]
    have : ((n : ℚ) - 1) * h ≤ t * h := by linarith
    push_cast
    exact le_of_mul_le_mul_right this b
  by_cases hdiv : h ∣ sh * w
  · rcases (by omega : ⌊t⌋ = n ∨ ⌊t⌋ = n - 1) with h1 | h1
    · exact Or.inl h1
    · exact Or.inr ⟨hdiv, h1⟩
  · left
    have q4 := q3 hdiv
    have : n ≤ ⌊t⌋ := by
      rw [Int.le_floor]
      have : (n : ℚ) * h ≤ t * h := by linarith
      exact le_of_mul_le_mul_right this b
    omega

/-! ## Shrink size: when a dimension is positive -/

/-- The bounds of `heightValue_bounds` with the source height multiplied
in. -/
theorem heightValue_bounds_mul {w h D : ℤ} (hw : 0 < w) (hh : 0 < h) (hD : 0 ≤ D) :
    heightValue w h D * ((w : ℚ) + h) * (1 - uro) ^ 2 ≤ sqrt2 * (D * h) * (1 + uro) ^ 2 ∧
      sqrt2 * (D * h) * (1 - uro) ^ 2 ≤ heightValue w h D * ((w : ℚ) + h) * (1 + uro) ^ 2 := by
  obtain ⟨b1, b2⟩ := heightValue_bounds hw hh hD
  have b : (0 : ℚ) < h := by exact_mod_cast hh
  have hM : (1 + (w : ℚ) / h) * h = w + h := by
    field_simp
    ring
  constructor
  · have := mul_le_mul_of_nonneg_right b1 b.le
    calc heightValue w h D * ((w : ℚ) + h) * (1 - uro) ^ 2
        = heightValue w h D * ((1 + (w : ℚ) / h) * h) * (1 - uro) ^ 2 := by rw [hM]
      _ = heightValue w h D * (1 + (w : ℚ) / h) * (1 - uro) ^ 2 * h := by ring
      _ ≤ sqrt2 * D * (1 + uro) ^ 2 * h := this
      _ = _ := by ring
  · have := mul_le_mul_of_nonneg_right b2 b.le
    calc sqrt2 * (D * h) * (1 - uro) ^ 2 = sqrt2 * D * (1 - uro) ^ 2 * h := by ring
      _ ≤ heightValue w h D * (1 + (w : ℚ) / h) * (1 + uro) ^ 2 * h := this
      _ = heightValue w h D * ((1 + (w : ℚ) / h) * h) * (1 + uro) ^ 2 := by ring
      _ = _ := by rw [hM]

/-- The shrink height is positive when `w + h ≤ 1.4142135 * D * h`. -/
theorem height_pos_of {w h D : ℤ} (hw : 0 < w) (hh : 0 < h) (hD : 0 ≤ D)
    (hc : 10 ^ 7 * (w + h) ≤ 14142135 * (D * h)) : 0 < ⌊heightValue w h D⌋ := by
  obtain ⟨-, b2⟩ := heightValue_bounds_mul hw hh hD
  have a : (0 : ℚ) < w := by exact_mod_cast hw
  have b : (0 : ℚ) < h := by exact_mod_cast hh
  have hM : (0 : ℚ) < (w : ℚ) + h := by linarith
  have hK : (0 : ℚ) ≤ (D : ℚ) * h := by
    have : (0 : ℚ) ≤ D := by exact_mod_cast hD
    positivity
  have hcq : (10 : ℚ) ^ 7 * ((w : ℚ) + h) ≤ 14142135 * ((D : ℚ) * h) := by exact_mod_cast hc
  have hu : uro = 1 / 2 ^ 53 := rfl
  have hS : sqrt2 = 6369051672525773 / 2 ^ 52 := rfl
  have z1 : (1 : ℚ) ≤ heightValue w h D := by
    by_contra hlt
    push_neg at hlt
    have hzM : heightValue w h D * ((w : ℚ) + h) < 1 * ((w : ℚ) + h) :=
      mul_lt_mul_of_pos_right hlt hM
    generalize heightValue w h D * ((w : ℚ) + h) = zM at b2 hzM
    generalize (D : ℚ) * h = K at b2 hK hcq
    rw [hu, hS] at b2
    norm_num at b2 hcq
    linarith
  have : (1 : ℤ) ≤ ⌊heightValue w h D⌋ := by
    rw [Int.le_floor]
    exact_mod_cast z1
  omega

/-- The shrink height is positive only when `w + h ≤ 1.4142136 * D * h`. -/
theorem height_pos_only {w h D : ℤ} (hw : 0 < w) (hh : 0 < h) (hD : 0 ≤ D)
    (hp : 0 < ⌊heightValue w h D⌋) : 10 ^ 7 * (w + h) ≤ 14142136 * (D * h) := by
  obtain ⟨b1, -⟩ := heightValue_bounds_mul hw hh hD
  have a : (0 : ℚ) < w := by exact_mod_cast hw
  have b : (0 : ℚ) < h := by exact_mod_cast hh
  have hM : (0 : ℚ) < (w : ℚ) + h := by linarith
  have z1 : (1 : ℚ) ≤ heightValue w h D := by
    have : (1 : ℤ) ≤ ⌊heightValue w h D⌋ := by omega
    rw [Int.le_floor] at this
    exact_mod_cast this
  have hzM : 1 * ((w : ℚ) + h) ≤ heightValue w h D * ((w : ℚ) + h) :=
    mul_le_mul_of_nonneg_right z1 hM.le
  have hu : uro = 1 / 2 ^ 53 := rfl
  have hS : sqrt2 = 6369051672525773 / 2 ^ 52 := rfl
  have : (10 : ℚ) ^ 7 * ((w : ℚ) + h) ≤ 14142136 * ((D : ℚ) * h) := by
    generalize heightValue w h D * ((w : ℚ) + h) = zM at b1 hzM
    generalize (D : ℚ) * h = K at b1 ⊢
    rw [hu, hS] at b1
    norm_num at b1 ⊢
    linarith
  exact_mod_cast this

/-- The shrink width is positive when `shrinkSizeHeight * w > h`. -/
theorem width_pos_of {w h s : ℤ} (hw : 0 < w) (hh : 0 < h) (hh2 : h ≤ 2 ^ 31) (hs : 0 ≤ s)
    (hc : h < s * w) : 0 < ⌊widthValue s (ratioOf w h)⌋ := by
  obtain ⟨t1, -⟩ := widthValue_bounds hw hh hs
  have b : (0 : ℚ) < h := by exact_mod_cast hh
  have hq : (h : ℚ) ≤ 2 ^ 31 := by exact_mod_cast hh2
  have hcq : (h : ℚ) + 1 ≤ ((s * w : ℤ) : ℚ) := by exact_mod_cast (by omega : h + 1 ≤ s * w)
  have hXh : (s : ℚ) * ((w : ℚ) / h) * h = ((s * w : ℤ) : ℚ) := by
    push_cast
    field_simp
  have T1 : ((s * w : ℤ) : ℚ) * (1 - uro) ^ 2 ≤ widthValue s (ratioOf w h) * h := by
    have := mul_le_mul_of_nonneg_right t1 b.le
    calc ((s * w : ℤ) : ℚ) * (1 - uro) ^ 2 = (s : ℚ) * ((w : ℚ) / h) * h * (1 - uro) ^ 2 := by
          rw [hXh]
      _ = (s : ℚ) * ((w : ℚ) / h) * (1 - uro) ^ 2 * h := by ring
      _ ≤ _ := this
  have hu : uro = 1 / 2 ^ 53 := rfl
  have t1' : (1 : ℚ) ≤ widthValue s (ratioOf w h) := by
    have : 1 * (h : ℚ) ≤ widthValue s (ratioOf w h) * h := by
      generalize widthValue s (ratioOf w h) * h = T at T1 ⊢
      generalize ((s * w : ℤ) : ℚ) = Y at T1 hcq
      rw [hu] at T1
      norm_num at T1
      linarith
    exact le_of_mul_le_mul_right this b
  have : (1 : ℤ) ≤ ⌊widthValue s (ratioOf w h)⌋ := by
    rw [Int.le_floor]
    exact_mod_cast t1'
  omega

/-- The shrink width is positive only when `shrinkSizeHeight * w ≥ h`. -/
theorem width_pos_only {w h s : ℤ} (hw : 0 < w) (hh : 0 < h) (hh2 : h ≤ 2 ^ 31) (hs : 0 ≤ s)
    (hp : 0 < ⌊widthValue s (ratioOf w h)⌋) : h ≤ s * w := by
  obtain ⟨-, t2⟩ := widthValue_bounds hw hh hs
  have b : (0 : ℚ) < h := by exact_mod_cast hh
  have hq : (h : ℚ) ≤ 2 ^ 31 := by exact_mod_cast hh2
  have hXh : (s : ℚ) * ((w : ℚ) / h) * h = ((s * w : ℤ) : ℚ) := by
    push_cast
    field_simp
  have T2 : widthValue s (ratioOf w h) * h ≤ ((s * w : ℤ) : ℚ) * (1 + uro) ^ 2 := by
    have := mul_le_mul_of_nonneg_right t2 b.le
    calc widthValue s (ratioOf w h) * h ≤ (s : ℚ) * ((w : ℚ) / h) * (1 + uro) ^ 2 * h := this
      _ = (s : ℚ) * ((w : ℚ) / h) * h * (1 + uro) ^ 2 := by ring
      _ = _ := by rw [hXh]
  have t1 : (1 : ℚ) ≤ widthValue s (ratioOf w h) := by
    have : (1 : ℤ) ≤ ⌊widthValue s (ratioOf w h)⌋ := by omega
    rw [Int.le_floor] at this
    exact_mod_cast this
  have hT : 1 * (h : ℚ) ≤ widthValue s (ratioOf w h) * h := mul_le_mul_of_nonneg_right t1 b.le
  have hu : uro = 1 / 2 ^ 53 := rfl
  by_contra hlt
  push_neg at hlt
  have hcq : ((s * w : ℤ) : ℚ) + 1 ≤ (h : ℚ) := by exact_mod_cast (by omega : s * w + 1 ≤ h)
  generalize widthValue s (ratioOf w h) * h = T at T2 hT
  generalize ((s * w : ℤ) : ℚ) = Y at T2 hcq
  rw [hu] at T2
  norm_num at T2
  linarith

/-- A condition on the inputs alone under which both shrink dimensions are
positive: `5 * (w + h)^2 ≤ 7 * D * h * w`. -/
theorem both_pos_of {w h D : ℤ} (hw : 0 < w) (hh : 0 < h) (hh2 : h ≤ 2 ^ 31) (hD : 0 ≤ D)
    (hc : 5 * (w + h) ^ 2 ≤ 7 * (D * h * w)) :
    0 < ⌊widthValue ⌊heightValue w h D⌋ (ratioOf w h)⌋ ∧ 0 < ⌊heightValue w h D⌋ := by
  have hKw : 0 ≤ D * h := mul_nonneg hD hh.le
  have c1 : 10 ^ 7 * (w + h) ≤ 14142135 * (D * h) := by
    have h1 : 5 * (w + h) ≤ 7 * (D * h) := by
      by_contra hlt
      push_neg at hlt
      have h2 : 7 * (D * h) * w ≤ 7 * (D * h) * (w + h) :=
        mul_le_mul_of_nonneg_left (by omega) (by omega)
      have h3 : 7 * (D * h) * (w + h) < 5 * (w + h) * (w + h) :=
        mul_lt_mul_of_pos_right hlt (by omega)
      nlinarith
    omega
  have hsh := height_pos_of hw hh hD c1
  refine ⟨?_, hsh⟩
  apply width_pos_of hw hh hh2 hsh.le
  obtain ⟨-, b2⟩ := heightValue_bounds_mul hw hh hD
  have a : (0 : ℚ) < w := by exact_mod_cast hw
  have b : (0 : ℚ) < h := by exact_mod_cast hh
  have hM : (0 : ℚ) < (w : ℚ) + h := by linarith
  have hK : (0 : ℚ) ≤ (D : ℚ) * h := by exact_mod_cast hKw
  have hcq : 5 * ((w : ℚ) + h) ^ 2 ≤ 7 * ((D : ℚ) * h * w) := by exact_mod_cast hc
  have hfl : heightValue w h D - 1 < (⌊heightValue w h D⌋ : ℚ) := by
    have := Int.lt_floor_add_one (heightValue w h D)
    linarith
  have hu : uro = 1 / 2 ^ 53 := rfl
  have hS : sqrt2 = 6369051672525773 / 2 ^ 52 := rfl
  -- `z * (w + h) ≥ 1.41 * D * h`
  have k1 : 141 / 100 * ((D : ℚ) * h) ≤ heightValue w h D * ((w : ℚ) + h) := by
    generalize heightValue w h D * ((w : ℚ) + h) = zM at b2 ⊢
    generalize (D : ℚ) * h = K at b2 hK ⊢
    rw [hu, hS] at b2
    norm_num at b2
    linarith
  -- `z * w ≥ 1.007 * (w + h)`
  have k2 : 1007 / 1000 * ((w : ℚ) + h) ≤ heightValue w h D * w := by
    have h1 : 141 / 100 * ((D : ℚ) * h) * w ≤ heightValue w h D * ((w : ℚ) + h) * w :=
      mul_le_mul_of_nonneg_right k1 a.le
    have h2 : 1007 / 1000 * ((w : ℚ) + h) * ((w : ℚ) + h) ≤ heightValue w h D * w * ((w : ℚ) + h) := by
      nlinarith
    exact le_of_mul_le_mul_right h2 hM
  have k3 : (h : ℚ) < (⌊heightValue w h D⌋ : ℚ) * w := by
    have : (heightValue w h D - 1) * w < (⌊heightValue w h D⌋ : ℚ) * w :=
      mul_lt_mul_of_pos_right hfl a
    nlinarith
  exact_mod_cast k3

/-! ## The device transform: facts -/

theorem destroy_of_frees {lib : Lib} (h : lib.destructorFrees = true) (d : Device) (p : Nat) :
    Device.destroy lib d p = d.nppiFree p := by
  unfold Device.destroy
  rw [if_pos h]

theorem destroy_of_not_frees {lib : Lib} (h : lib.destructorFrees = false) (d : Device)
    (p : Nat) : Device.destroy lib d p = d := by
  unfold Device.destroy
  rw [if_neg (by simp [h])]

/-- A destructor only appends to the calls made so far. -/
theorem destroy_calls (lib : Lib) (d : Device) (p : Nat) :
    ∃ extra, (Device.destroy lib d p).calls = d.calls ++ extra := by
  unfold Device.destroy Device.nppiFree
  split_ifs
  · exact ⟨[Call.free p], rfl⟩
  · exact ⟨[], by simp⟩

/-- A destructor never touches a pointer other than its own. -/
theorem destroy_live_of_not_mem (lib : Lib) (d : Device) (p : Nat) (h : p ∉ d.live) :
    (Device.destroy lib d p).live = d.live := by
  unfold Device.destroy Device.nppiFree
  split_ifs
  · exact List.erase_of_not_mem h
  · rfl

/-- A successful call returns an image whose two dimensions are the
destination size as converted to `unsigned int`. -/
theorem convertImage_ok_size (lib : Lib) (img : ImageCPU) (D : ℤ) (d : Device) (out : ImageCPU)
    (h : (convertImage lib img D d).1 = Except.ok out) :
    out = { width := toU32 D, height := toU32 D } := by
  revert h
  unfold convertImage
  simp only [Device.malloc]
  split_ifs
  · simp
  · split
    · simp
    · split_ifs <;> simp
      intro h
      exact h.symm

theorem erase_three (n : Nat) (l : List Nat) :
    ((((n + 1 + 1) :: (n + 1) :: n :: l).erase n).erase (n + 1)).erase (n + 1 + 1) = l := by
  have h1 : ((n + 1 + 1) :: (n + 1) :: n :: l).erase n = (n + 1 + 1) :: (n + 1) :: l := by
    rw [List.erase_cons_tail (by simp; omega), List.erase_cons_tail (by simp),
      List.erase_cons_head]
  have h2 : ((n + 1 + 1) :: (n + 1) :: l).erase (n + 1) = (n + 1 + 1) :: l := by
    rw [List.erase_cons_tail (by simp), List.erase_cons_head]
  rw [h1, h2, List.erase_cons_head]

/-- With a destructor that frees, a call that throws leaves the live
allocations as they were before the call. -/
theorem convertImage_error_released (lib : Lib) (img : ImageCPU) (D : ℤ) (d : Device) (e : Exn)
    (hf : lib.destructorFrees = true)
    (h : (convertImage lib img D d).1 = Except.error e) :
    (convertImage lib img D d).2.live = d.live := by
  revert h
  unfold convertImage
  simp only [Device.malloc, Device.call, destroy_of_frees hf, Device.nppiFree]
  split_ifs
  · simp
  · split
    · simp
    · split_ifs <;> simp

/-- With a destructor that frees nothing, a call that throws has released
nothing: every device buffer allocated before the exception is still
allocated. -/
theorem convertImage_error_live (lib : Lib) (img : ImageCPU) (D : ℤ) (d : Device) (e : Exn)
    (hf : lib.destructorFrees = false)
    (h : (convertImage lib img D d).1 = Except.error e) :
    (convertImage lib img D d).2.live.length = d.live.length + allocatedBefore e := by
  revert h
  unfold convertImage
  simp only [Device.malloc, Device.call, destroy_of_not_frees hf, Device.nppiFree]
  split_ifs
  · simp
    intro h
    subst h
    rfl
  · split
    · simp
      intro h
      subst h
      rfl
    · split_ifs <;> simp <;> intro h <;> subst h <;> rfl

/-- A call that returns has released its three device buffers through lines
161-163, whatever the destructor does: on a device whose fresh pointers are
not live, the live allocations are those from before the call. -/
theorem convertImage_ok_live (lib : Lib) (img : ImageCPU) (D : ℤ) (d : Device) (out : ImageCPU)
    (hfresh : ∀ p ∈ d.live, p < d.next)
    (h : (convertImage lib img D d).1 = Except.ok out) :
    (convertImage lib img D d).2.live = d.live := by
  have n0 : d.next ∉ d.live := fun hm => absurd (hfresh _ hm) (by omega)
  have n1 : d.next + 1 ∉ d.live := fun hm => absurd (hfresh _ hm) (by omega)
  have n2 : d.next + 1 + 1 ∉ d.live := fun hm => absurd (hfresh _ hm) (by omega)
  revert h
  unfold convertImage
  simp only [Device.malloc, Device.call]
  split_ifs
  · simp
  · split
    · simp
    · split_ifs <;> simp
      intro _
      have e3 : (((d.nppiFree d.next).nppiFree (d.next + 1)).nppiFree (d.next + 1 + 1)).live
          = d.live := by
        simp only [Device.nppiFree]
        rw [List.erase_of_not_mem n0, List.erase_of_not_mem n1, List.erase_of_not_mem n2]
      rw [destroy_live_of_not_mem, destroy_live_of_not_mem, destroy_live_of_not_mem]
      · simp only [Device.nppiFree]
        exact erase_three d.next d.live
      · simp only [Device.nppiFree]
        rw [erase_three]
        exact n2
      · rw [destroy_live_of_not_mem]
        · simp only [Device.nppiFree]
          rw [erase_three]
          exact n1
        · simp only [Device.nppiFree]
          rw [erase_three]
          exact n2
      · rw [destroy_live_of_not_mem, destroy_live_of_not_mem]
        · simp only [Device.nppiFree]
          rw [erase_three]
          exact n0
        · simp only [Device.nppiFree]
          rw [erase_three]
          exact n2
        · rw [destroy_live_of_not_mem]
          · simp only [Device.nppiFree]
            rw [erase_three]
            exact n1
          · simp only [Device.nppiFree]
            rw [erase_three]
            exact n2

/-- The first library call of `convertImage` is the upload of the input,
whatever the destination size. -/
theorem convertImage_calls (lib : Lib) (img : ImageCPU) (D : ℤ) (d : Device) :
    ∃ rest, (convertImage lib img D d).2.calls
      = d.calls ++ Call.upload img.width img.height :: rest := by
  cases hf : lib.destructorFrees
  · unfold convertImage
    simp only [Device.malloc, Device.call, destroy_of_not_frees hf, Device.nppiFree]
    split_ifs
    · exact ⟨[], rfl⟩
    · split
      · exact ⟨[], rfl⟩
      · split_ifs <;> simp
  · unfold convertImage
    simp only [Device.malloc, Device.call, destroy_of_frees hf, Device.nppiFree]
    split_ifs
    · exact ⟨[], rfl⟩
    · split
      · simp
      · split_ifs <;> simp

/-- After a successful upload the shrink buffer is requested with the
computed shrink size as it is. -/
theorem convertImage_requests_shrink (lib : Lib) (img : ImageCPU) (D : ℤ) (d : Device)
    (sw sh : ℤ) (hu : lib.uploadOk d img.width img.height = true)
    (hs : shrinkSize (toInt32 img.width) (toInt32 img.height) D = some (sw, sh)) :
    ∃ rest, (convertImage lib img D d).2.calls
      = d.calls ++ Call.upload img.width img.height :: Call.alloc (toU32 sw) (toU32 sh) :: rest := by
  cases hf : lib.destructorFrees
  · unfold convertImage
    simp only [Device.malloc, Device.call, destroy_of_not_frees hf, Device.nppiFree, hu, hs]
    simp only [Bool.true_eq_false, if_false]
    split_ifs <;> simp
  · unfold convertImage
    simp only [Device.malloc, Device.call, destroy_of_frees hf, Device.nppiFree, hu, hs]
    simp only [Bool.true_eq_false, if_false]
    split_ifs <;> simp

/-- After a successful upload and a successful allocation of the shrink
buffer, `nppiResize_8u_C3R` is called with the computed shrink size as it
is. -/
theorem convertImage_requests_resize (lib : Lib) (img : ImageCPU) (D : ℤ) (d : Device)
    (sw sh : ℤ) (hu : lib.uploadOk d img.width img.height = true)
    (hs : shrinkSize (toInt32 img.width) (toInt32 img.height) D = some (sw, sh))
    (ha : lib.allocOk (d.call (Call.upload img.width img.height)).malloc.2
      (toU32 sw) (toU32 sh) = true) :
    ∃ rest, (convertImage lib img D d).2.calls
      = d.calls ++ Call.upload img.width img.height :: Call.alloc (toU32 sw) (toU32 sh) ::
        Call.resize (toInt32 img.width) (toInt32 img.height) sw sh :: rest := by
  simp only [Device.malloc, Device.call] at ha
  cases hf : lib.destructorFrees
  · unfold convertImage
    simp only [Device.malloc, Device.call, destroy_of_not_frees hf, Device.nppiFree, hu, hs, ha]
    simp only [Bool.true_eq_false, if_false]
    split_ifs <;> simp
  · unfold convertImage
    simp only [Device.malloc, Device.call, destroy_of_frees hf, Device.nppiFree, hu, hs, ha]
    simp only [Bool.true_eq_false, if_false]
    split_ifs <;> simp

/-- The run of `convertImage` when every library call succeeds: it returns,
and the calls are those of lines 134-163 followed by the three frees of the
destructors. -/
theorem convertImage_allOk (img : ImageCPU) (D : ℤ) (d : Device) (sw sh : ℤ)
    (hs : shrinkSize (toInt32 img.width) (toInt32 img.height) D = some (sw, sh)) :
    (convertImage allOk img D d).1 = Except.ok { width := toU32 D, height := toU32 D } ∧
      (convertImage allOk img D d).2.calls = d.calls ++
        [Call.upload img.width img.height, Call.alloc (toU32 sw) (toU32 sh),
          Call.resize (toInt32 img.width) (toInt32 img.height) sw sh,
          Call.alloc (toU32 D) (toU32 D),
          Call.rotate sw sh D (fl ((sw : ℚ) / sqrt2)),
          Call.download (toU32 D) (toU32 D),
          Call.free d.next, Call.free (d.next + 1), Call.free (d.next + 2),
          Call.free (d.next + 2), Call.free (d.next + 1), Call.free d.next] := by
  unfold convertImage
  simp [Device.malloc, Device.call, Device.destroy, Device.nppiFree, allOk, hs]

/-- The run of `convertImage` when the resize fails: it throws at the
resize. -/
theorem convertImage_resizeFails (img : ImageCPU) (D : ℤ) (d : Device) (sw sh : ℤ)
    (hs : shrinkSize (toInt32 img.width) (toInt32 img.height) D = some (sw, sh)) :
    (convertImage resizeFails img D d).1 = Except.error Exn.resize := by
  unfold convertImage
  simp [Device.malloc, Device.call, resizeFails, hs]

theorem toInt32_of_lt {n : Nat} (h : n < 2 ^ 31) : toInt32 n = n := by
  unfold toInt32
  have : n % 2 ^ 32 = n := Nat.mod_eq_of_lt (by omega)
  rw [this, if_pos h]

theorem toU32_of_nonneg {z : ℤ} (h0 : 0 ≤ z) (h : z < 2 ^ 32) : ((toU32 z : Nat) : ℤ) = z := by
  unfold toU32
  rw [Int.emod_eq_of_lt h0 h]
  omega

/-! ## Shrink size at particular inputs -/

theorem shrinkSize_300_1100_50 : shrinkSize 300 1100 50 = some (14, 55) := by
  apply shrinkSize_eval 300 1100 50 (1228254443828317 / 2 ^ 52) (5731854071198813 / 2 ^ 52)
    (621977702395095 / 2 ^ 43) (3909574129340597 / 2 ^ 46) (8444249301319679 / 2 ^ 49) 14 55
  · norm_num
  · exact fl_eval_eq (-2) 4913017775313268 (by norm_num) (by norm_num)
      (by norm_num [abs_lt]) (by norm_num)
  · exact fl_eval_eq 0 5731854071198813 (by norm_num) (by norm_num)
      (by norm_num [abs_lt]) (by norm_num)
  · norm_num
  · exact fl_eval_eq 6 4975821619160760 (by norm_num [sqrt2]) (by norm_num [sqrt2])
      (by norm_num [sqrt2, abs_lt]) (by norm_num)
  · exact fl_eval_eq 5 7819148258681194 (by norm_num) (by norm_num)
      (by norm_num [abs_lt]) (by norm_num)
  · exact toInt_eval 55 (by norm_num) (by norm_num) (by norm_num) (by norm_num)
  · exact fl_eval_eq 3 8444249301319679 (by norm_num) (by norm_num)
      (by norm_num [abs_lt]) (by norm_num)
  · exact toInt_eval 14 (by norm_num) (by norm_num) (by norm_num) (by norm_num)

theorem shrinkSize_400_200_200 : shrinkSize 400 200 200 = some (188, 94) := by
  apply shrinkSize_eval 400 200 200 (2) (3)
    (621977702395095 / 2 ^ 41) (207325900798365 / 2 ^ 41) (188) 188 94
  · norm_num
  · exact fl_eval_eq 1 4503599627370496 (by norm_num) (by norm_num)
      (by norm_num [abs_lt]) (by norm_num)
  · exact fl_eval_eq 1 6755399441055744 (by norm_num) (by norm_num)
      (by norm_num [abs_lt]) (by norm_num)
  · norm_num
  · exact fl_eval_eq 8 4975821619160760 (by norm_num [sqrt2]) (by norm_num [sqrt2])
      (by norm_num [sqrt2, abs_lt]) (by norm_num)
  · exact fl_eval_eq 6 6634428825547680 (by norm_num) (by norm_num)
      (by norm_num [abs_lt]) (by norm_num)
  · exact toInt_eval 94 (by norm_num) (by norm_num) (by norm_num) (by norm_num)
  · exact fl_eval_eq 7 6614661952700416 (by norm_num) (by norm_num)
      (by norm_num [abs_lt]) (by norm_num)
  · exact toInt_eval 188 (by norm_num) (by norm_num) (by norm_num) (by norm_num)

theorem shrinkSize_300_300_100 : shrinkSize 300 300 100 = some (70, 70) := by
  apply shrinkSize_eval 300 300 100 (1) (2)
    (621977702395095 / 2 ^ 42) (621977702395095 / 2 ^ 43) (70) 70 70
  · norm_num
  · exact fl_eval_eq 0 4503599627370496 (by norm_num) (by norm_num)
      (by norm_num [abs_lt]) (by norm_num)
  · exact fl_eval_eq 1 4503599627370496 (by norm_num) (by norm_num)
      (by norm_num [abs_lt]) (by norm_num)
  · norm_num
  · exact fl_eval_eq 7 4975821619160760 (by norm_num [sqrt2]) (by norm_num [sqrt2])
      (by norm_num [sqrt2, abs_lt]) (by norm_num)
  · exact fl_eval_eq 6 4975821619160760 (by norm_num) (by norm_num)
      (by norm_num [abs_lt]) (by norm_num)
  · exact toInt_eval 70 (by norm_num) (by norm_num) (by norm_num) (by norm_num)
  · exact fl_eval_eq 6 4925812092436480 (by norm_num) (by norm_num)
      (by norm_num [abs_lt]) (by norm_num)
  · exact toInt_eval 70 (by norm_num) (by norm_num) (by norm_num) (by norm_num)

theorem shrinkSize_10_5000_200 : shrinkSize 10 5000 200 = some (0, 282) := by
  apply shrinkSize_eval 10 5000 200 (1152921504606847 / 2 ^ 59) (4512606826625237 / 2 ^ 52)
    (621977702395095 / 2 ^ 41) (1241472459870449 / 2 ^ 42) (79375943432405 / 2 ^ 47) 0 282
  · norm_num
  · exact fl_eval_eq (-9) 4611686018427388 (by norm_num) (by norm_num)
      (by norm_num [abs_lt]) (by norm_num)
  · exact fl_eval_eq 0 4512606826625237 (by norm_num) (by norm_num)
      (by norm_num [abs_lt]) (by norm_num)
  · norm_num
  · exact fl_eval_eq 8 4975821619160760 (by norm_num [sqrt2]) (by norm_num [sqrt2])
      (by norm_num [sqrt2, abs_lt]) (by norm_num)
  · exact fl_eval_eq 8 4965889839481796 (by norm_num) (by norm_num)
      (by norm_num [abs_lt]) (by norm_num)
  · exact toInt_eval 282 (by norm_num) (by norm_num) (by norm_num) (by norm_num)
  · exact fl_eval_eq (-1) 5080060379673920 (by norm_num) (by norm_num)
      (by norm_num [abs_lt]) (by norm_num)
  · exact toInt_eval 0 (by norm_num) (by norm_num) (by norm_num) (by norm_num)

theorem shrinkSize_1_1_318281039 : shrinkSize 1 1 318281039 = some (225058681, 225058681) := by
  apply shrinkSize_eval 1 1 318281039 (1) (2)
    (450117362) (225058681) (225058681) 225058681 225058681
  · norm_num
  · exact fl_eval_eq 0 4503599627370496 (by norm_num) (by norm_num)
      (by norm_num [abs_lt]) (by norm_num)
  · exact fl_eval_eq 1 4503599627370496 (by norm_num) (by norm_num)
      (by norm_num [abs_lt]) (by norm_num)
  · norm_num
  · exact fl_eval_eq 28 7551716207624192 (by norm_num [sqrt2]) (by norm_num [sqrt2])
      (by norm_num [sqrt2, abs_lt]) (by norm_num)
  · exact fl_eval_eq 27 7551716207624192 (by norm_num) (by norm_num)
      (by norm_num [abs_lt]) (by norm_num)
  · exact toInt_eval 225058681 (by norm_num) (by norm_num) (by norm_num) (by norm_num)
  · exact fl_eval_eq 27 7551716207624192 (by norm_num) (by norm_num)
      (by norm_num [abs_lt]) (by norm_num)
  · exact toInt_eval 225058681 (by norm_num) (by norm_num) (by norm_num) (by norm_num)

/-- A zero destination size gives a zero shrink size. -/
theorem shrinkSize_zero {w h : ℤ} (hw : 0 ≤ w) (hh : 0 < h) : shrinkSize w h 0 = some (0, 0) := by
  have a : (0 : ℚ) ≤ w := by exact_mod_cast hw
  have b : (0 : ℚ) < h := by exact_mod_cast hh
  have hr : 0 ≤ ratioOf w h := by
    unfold ratioOf
    exact fl_nonneg (by positivity)
  have hy : 0 < fl (1 + ratioOf w h) := fl_pos (by linarith)
  have hz : heightValue w h 0 = 0 := by
    unfold heightValue
    simp [fl_zero]
  have h0 : toInt 0 = some 0 := toInt_eval 0 (by norm_num) (by norm_num) (by norm_num) (by norm_num)
  unfold shrinkSize
  rw [if_neg hh.ne', if_neg hy.ne', hz, h0]
  simp only
  unfold widthValue
  simp [fl_zero, h0]

/-! ## Output file name: facts -/

theorem rfind_append (a b : List Char) (c : Char) :
    rfind (a ++ b) c = match rfind b c with
      | some i => some (a.length + i)
      | none => rfind a c := by
  induction a with
  | nil =>
    cases h : rfind b c <;> simp [h, rfind]
  | cons x xs ih =>
    rw [List.cons_append, rfind, ih]
    cases h : rfind b c with
    | none => simp [rfind]
    | some i =>
      simp only [List.length_cons]
      congr 1
      omega

theorem dirPart_append_fileNamePart (path : List Char) :
    dirPart path ++ fileNamePart path = path := by
  unfold dirPart fileNamePart
  cases rfind path '/' with
  | none => rfl
  | some i => exact List.take_append_drop _ _

/-- When the directory part of the path contains no `.`, `getOutputFileName`
puts the suffix where the usage text says. -/
theorem getOutputFileName_eq_suffixedFileName (path suffix : List Char)
    (hdir : rfind (dirPart path) '.' = none) :
    getOutputFileName path suffix = suffixedFileName path suffix := by
  have hp := dirPart_append_fileNamePart path
  have hr := rfind_append (dirPart path) (fileNamePart path) '.'
  rw [hp, hdir] at hr
  unfold getOutputFileName suffixedFileName
  simp only
  generalize dirPart path = dir at hp hr ⊢
  generalize fileNamePart path = name at hp hr ⊢
  subst hp
  cases hn : rfind name '.' with
  | none =>
    rw [hn] at hr
    simp only at hr
    rw [hr]
  | some i =>
    rw [hn] at hr
    simp only at hr
    rw [hr]
    simp only
    rw [List.take_append, List.drop_append]

/-! ## Row copies: facts -/

theorem memcpy_outside (dst src : Mem) (d s n a : Int) (h : a < d ∨ d + n ≤ a) :
    memcpy dst d src s n a = dst a := by
  unfold memcpy
  rw [if_neg]
  omega

theorem memcpy_inside (dst src : Mem) (d s n j : Int) (h0 : 0 ≤ j) (h1 : j < n) :
    memcpy dst d src s n (d + j) = src (s + j) := by
  unfold memcpy
  rw [if_pos (by omega)]
  congr 1
  omega

theorem u32_nonneg (n : Int) : 0 ≤ u32 n := by
  unfold u32
  omega

theorem u32_of_lt (n : Int) (h0 : 0 ≤ n) (h : n < 2 ^ 32) : u32 n = n := by
  unfold u32
  omega

/-- The loop of `loadImage` never writes below its current `dstLine`. -/
theorem loadRows_below (src : Mem) (width srcPitch dstPitch : Nat) :
    ∀ (k : Nat) (s d : Int) (dst : Mem) (a : Int), a < d →
      loadRows src width srcPitch dstPitch k s d dst a = dst a := by
  intro k
  induction k with
  | zero => intro s d dst a _; rfl
  | succ k ih =>
    intro s d dst a ha
    rw [loadRows, ih _ _ _ a (by omega), memcpy_outside _ _ _ _ _ _ (Or.inl ha)]

/-- What the loop of `loadImage` leaves in the destination: row `r` counted
from `dstLine` holds the bytes found `r` rows below `srcLine`. -/
theorem loadRows_row (src : Mem) (width srcPitch dstPitch : Nat)
    (hp : u32 (width * 3) ≤ dstPitch) :
    ∀ (k : Nat) (s d : Int) (dst : Mem) (r : Nat) (j : Int), r < k → 0 ≤ j →
      j < u32 (width * 3) →
      loadRows src width srcPitch dstPitch k s d dst (d + r * dstPitch + j)
        = src (s - r * srcPitch + j) := by
  intro k
  induction k with
  | zero => intro s d dst r j hr; omega
  | succ k ih =>
    intro s d dst r j hr h0 h1
    rw [loadRows]
    cases r with
    | zero =>
      rw [loadRows_below _ _ _ _ _ _ _ _ _ (by push_cast; omega)]
      have e1 : d + ((0 : Nat) : Int) * dstPitch + j = d + j := by push_cast; ring
      have e2 : s - ((0 : Nat) : Int) * srcPitch + j = s + j := by push_cast; ring
      rw [e1, e2, memcpy_inside _ _ _ _ _ _ h0 h1]
    | succ r =>
      have e1 : d + ((r + 1 : Nat) : Int) * dstPitch + j = (d + dstPitch) + r * dstPitch + j := by
        push_cast; ring
      have e2 : s - ((r + 1 : Nat) : Int) * srcPitch + j = (s - srcPitch) - r * srcPitch + j := by
        push_cast; ring
      rw [e1, e2]
      exact ih _ _ _ r j (by omega) h0 h1

/-- The loop of `saveImage` never writes at or above `dstLine + 3 * width`. -/
theorem saveRows_above (src : Mem) (width srcPitch dstPitch : Nat) :
    ∀ (k : Nat) (s d : Int) (dst : Mem) (a : Int), d + u32 (width * 3) ≤ a →
      saveRows src width srcPitch dstPitch k s d dst a = dst a := by
  intro k
  induction k with
  | zero => intro s d dst a _; rfl
  | succ k ih =>
    intro s d dst a ha
    rw [saveRows, ih _ _ _ a (by omega), memcpy_outside _ _ _ _ _ _ (Or.inr ha)]

/-- What the loop of `saveImage` leaves in the destination: the row `r` rows
below `dstLine` holds the bytes found `r` rows above `srcLine`. -/
theorem saveRows_row (src : Mem) (width srcPitch dstPitch : Nat)
    (hp : u32 (width * 3) ≤ dstPitch) :
    ∀ (k : Nat) (s d : Int) (dst : Mem) (r : Nat) (j : Int), r < k → 0 ≤ j →
      j < u32 (width * 3) →
      saveRows src width srcPitch dstPitch k s d dst (d - r * dstPitch + j)
        = src (s + r * srcPitch + j) := by
  intro k
  induction k with
  | zero => intro s d dst r j hr; omega
  | succ k ih =>
    intro s d dst r j hr h0 h1
    rw [saveRows]
    cases r with
    | zero =>
      rw [saveRows_above _ _ _ _ _ _ _ _ _ (by push_cast; omega)]
      have e1 : d - ((0 : Nat) : Int) * dstPitch + j = d + j := by push_cast; ring
      have e2 : s + ((0 : Nat) : Int) * srcPitch + j = s + j := by push_cast; ring
      rw [e1, e2, memcpy_inside _ _ _ _ _ _ h0 h1]
    | succ r =>
      have e1 : d - ((r + 1 : Nat) : Int) * dstPitch + j = (d - dstPitch) - r * dstPitch + j := by
        push_cast; ring
      have e2 : s + ((r + 1 : Nat) : Int) * srcPitch + j = (s + srcPitch) + r * srcPitch + j := by
        push_cast; ring
      rw [e1, e2]
      exact ih _ _ _ r j (by omega) h0 h1

/-- The start offset of both loops when the `unsigned int` product does not
wrap. -/
theorem start_offset_of_lt (pitch height : Nat) (hh : 0 < height) (hh2 : height < 2 ^ 32)
    (hfit : pitch * (height - 1) < 2 ^ 32) :
    u32 ((pitch : Int) * u32 ((height : Int) - 1)) = (pitch : Int) * ((height : Int) - 1) := by
  have e : ((height : Int) - 1) = ((height - 1 : Nat) : Int) := by omega
  rw [u32_of_lt ((height : Int) - 1) (by omega) (by omega), e]
  apply u32_of_lt
  · positivity
  · exact_mod_cast hfit

/-- Row reversal by `loadImage` for bitmaps whose last-row offset fits an
`unsigned int`: destination row `r` holds source row `height - 1 - r`. -/
theorem loadImageCopy_row (bits data : Mem) (width height srcPitch dstPitch : Nat)
    (hd : 3 * width ≤ dstPitch) (hw : 3 * width < 2 ^ 32) (hh2 : height < 2 ^ 32)
    (hfit : srcPitch * (height - 1) < 2 ^ 32)
    (r : Nat) (hr : r < height) (j : Nat) (hj : j < 3 * width) :
    loadImageCopy bits width height srcPitch dstPitch data ((r : Int) * dstPitch + j)
      = bits (((height - 1 - r : Nat) : Int) * srcPitch + j) := by
  have hn : u32 ((width : Int) * 3) = (width : Int) * 3 := u32_of_lt _ (by positivity) (by omega)
  unfold loadImageCopy
  rw [start_offset_of_lt srcPitch height (by omega) hh2 hfit]
  have := loadRows_row bits width srcPitch dstPitch (by rw [hn]; omega) height
    ((srcPitch : Int) * ((height : Int) - 1)) 0 data r j hr (by omega) (by rw [hn]; omega)
  rw [zero_add] at this
  rw [this]
  congr 1
  have : ((height - 1 - r : Nat) : Int) = (height : Int) - 1 - r := by omega
  rw [this]
  ring

/-- Row reversal by `saveImage` for images whose last-row offset fits an
`unsigned int`: bitmap row `r` holds image row `height - 1 - r`. -/
theorem saveImageCopy_row (data bits : Mem) (width height srcPitch dstPitch : Nat)
    (hd : 3 * width ≤ dstPitch) (hw : 3 * width < 2 ^ 32) (hh2 : height < 2 ^ 32)
    (hfit : dstPitch * (height - 1) < 2 ^ 32)
    (r : Nat) (hr : r < height) (j : Nat) (hj : j < 3 * width) :
    saveImageCopy data width height srcPitch dstPitch bits ((r : Int) * dstPitch + j)
      = data (((height - 1 - r : Nat) : Int) * srcPitch + j) := by
  have hn : u32 ((width : Int) * 3) = (width : Int) * 3 := u32_of_lt _ (by positivity) (by omega)
  unfold saveImageCopy
  rw [start_offset_of_lt dstPitch height (by omega) hh2 hfit]
  have := saveRows_row data width srcPitch dstPitch (by rw [hn]; omega) height 0
    ((dstPitch : Int) * ((height : Int) - 1)) bits (height - 1 - r) j (by omega) (by omega)
    (by rw [hn]; omega)
  have e : (dstPitch : Int) * ((height : Int) - 1) - ((height - 1 - r : Nat) : Int) * dstPitch + j
      = (r : Int) * dstPitch + j := by
    have : ((height - 1 - r : Nat) : Int) = (height : Int) - 1 - r := by omega
    rw [this]
    ring
  rw [e, zero_add] at this
  exact this

/-- Round trip of the two row loops for bitmaps whose last-row offset fits an
`unsigned int`: every row comes back at its own position. -/
theorem roundTrip_row (bits data out : Mem) (width height bmpPitch imgPitch : Nat)
    (hb : 3 * width ≤ bmpPitch) (hi : 3 * width ≤ imgPitch) (hw : 3 * width < 2 ^ 32)
    (hh2 : height < 2 ^ 32) (hfit : bmpPitch * (height - 1) < 2 ^ 32)
    (r : Nat) (hr : r < height) (j : Nat) (hj : j < 3 * width) :
    saveImageCopy (loadImageCopy bits width height bmpPitch imgPitch data)
        width height imgPitch bmpPitch out ((r : Int) * bmpPitch + j)
      = bits ((r : Int) * bmpPitch + j) := by
  have e : height - 1 - (height - 1 - r) = r := by omega
  rw [saveImageCopy_row _ _ _ _ _ _ hb hw hh2 hfit r hr j hj,
    loadImageCopy_row _ _ _ _ _ _ hi hw hh2 hfit (height - 1 - r) (by omega) j hj, e]

/-- The byte pattern of the last row of a 40000-row bitmap of pitch 120000. -/
theorem rowPattern_last : rowPattern 120000 (39999 * 120000) = 63 := by
  norm_num [rowPattern]
  rfl

/-! ## The claims -/

/-- C1, counterexample. The shrink size is not always the exact formula: for
the source 300x1100 with D = 50 the code gives height 55 and width 14 although
`floor(55 * (300/1100)) = 15`, because `300./1100.` is rounded down; for the
source 1x1 with D = 318281039 it gives height 225058681 although
`floor(sqrt(2) * D / (1 + 1)) = 225058680`, because `sqrt(2.)` is rounded
up. -/
theorem shrinkSize_formula_counterexample :
    (shrinkSize 300 1100 50 = some (14, 55) ∧ ⌊(55 : ℝ) * ((300 : ℝ) / 1100)⌋ = 15) ∧
      (shrinkSize 1 1 318281039 = some (225058681, 225058681) ∧
        ⌊Real.sqrt 2 * (318281039 : ℝ) / (1 + (1 : ℝ) / 1)⌋ = 225058680) := by
  refine ⟨⟨shrinkSize_300_1100_50, ?_⟩, shrinkSize_1_1_318281039, ?_⟩
  · have : (55 : ℝ) * ((300 : ℝ) / 1100) = ((15 : ℤ) : ℝ) := by norm_num
    rw [this, Int.floor_intCast]
  · rw [Int.floor_eq_iff]
    have h0 : (0 : ℝ) ≤ Real.sqrt 2 := Real.sqrt_nonneg 2
    have h1 : (450117360 : ℝ) / 318281039 ≤ Real.sqrt 2 := by
      apply Real.le_sqrt_of_sq_le
      norm_num
    have h2 : Real.sqrt 2 < 450117362 / 318281039 := by
      rw [Real.sqrt_lt' (by norm_num)]
      norm_num
    rw [div_le_iff₀ (by norm_num)] at h1
    rw [lt_div_iff₀ (by norm_num)] at h2
    constructor
    · push_cast
      linarith
    · push_cast
      linarith

/-- C1, amended. For every source of positive size and every destination
size `0 < D ≤ 2^30`, `convertImage` computes a shrink size in binary64
arithmetic whose height is within one of `floor(sqrt(2) * D / (1 + w/h))` and
whose width is within one of `floor(shrinkHeight * (w/h))`. When moreover
`D * h ≤ 2^24`, the height is exactly `floor(sqrt(2) * D / (1 + w/h))` and the
width is `floor(shrinkHeight * (w/h))` or, only when `h` divides
`shrinkHeight * w`, one less. For the source 400x200 with D = 200 the shrink
size is 188x94. -/
theorem shrinkSize_formula_amended (w h D : ℤ) (hw : 0 < w) (hh : 0 < h) (hD : 0 < D)
    (hD2 : D ≤ 2 ^ 30) :
    (∃ sw sh, shrinkSize w h D = some (sw, sh) ∧
      |sh - ⌊Real.sqrt 2 * (D : ℝ) / (1 + (w : ℝ) / (h : ℝ))⌋| ≤ 1 ∧
      |sw - ⌊(sh : ℝ) * ((w : ℝ) / (h : ℝ))⌋| ≤ 1 ∧
      (D * h ≤ 2 ^ 24 →
        sh = ⌊Real.sqrt 2 * (D : ℝ) / (1 + (w : ℝ) / (h : ℝ))⌋ ∧
        (sw = ⌊(sh : ℝ) * ((w : ℝ) / (h : ℝ))⌋ ∨
          (h ∣ sh * w ∧ sw = ⌊(sh : ℝ) * ((w : ℝ) / (h : ℝ))⌋ - 1)))) ∧
    shrinkSize 400 200 200 = some (188, 94) := by
  have cast_floor : ∀ sh : ℤ, ⌊(sh : ℝ) * ((w : ℝ) / (h : ℝ))⌋
      = ⌊(sh : ℚ) * ((w : ℚ) / (h : ℚ))⌋ := by
    intro sh
    have c : (((sh : ℚ) * ((w : ℚ) / (h : ℚ)) : ℚ) : ℝ) = (sh : ℝ) * ((w : ℝ) / (h : ℝ)) := by
      push_cast
      ring
    rw [← c, Rat.floor_cast]
  refine ⟨⟨_, _, shrinkSize_eq hw hh hD.le hD2, ?_, ?_, ?_⟩, shrinkSize_400_200_200⟩
  · obtain ⟨n1, n2⟩ := heightValue_near hw hh hD.le hD2
    have := floor_near n1 n2
    rwa [Rat.floor_cast] at this
  · obtain ⟨n1, n2⟩ := widthValue_near hw hh hD.le hD2
    rw [cast_floor]
    exact floor_near n1 n2
  · intro hDh
    refine ⟨height_exact hw hh hD hDh, ?_⟩
    rw [cast_floor]
    exact width_sharp hw hh hD hDh

/-- C1, amended: the statement at the source 400x200 with D = 200. -/
theorem shrinkSize_formula_amended_witness :
    (∃ sw sh, shrinkSize 400 200 200 = some (sw, sh) ∧
      |sh - ⌊Real.sqrt 2 * ((200 : ℤ) : ℝ) / (1 + ((400 : ℤ) : ℝ) / ((200 : ℤ) : ℝ))⌋| ≤ 1 ∧
      |sw - ⌊(sh : ℝ) * (((400 : ℤ) : ℝ) / ((200 : ℤ) : ℝ))⌋| ≤ 1 ∧
      ((200 : ℤ) * 200 ≤ 2 ^ 24 →
        sh = ⌊Real.sqrt 2 * ((200 : ℤ) : ℝ) / (1 + ((400 : ℤ) : ℝ) / ((200 : ℤ) : ℝ))⌋ ∧
        (sw = ⌊(sh : ℝ) * (((400 : ℤ) : ℝ) / ((200 : ℤ) : ℝ))⌋ ∨
          ((200 : ℤ) ∣ sh * 400 ∧
            sw = ⌊(sh : ℝ) * (((400 : ℤ) : ℝ) / ((200 : ℤ) : ℝ))⌋ - 1)))) ∧
    shrinkSize 400 200 200 = some (188, 94) :=
  shrinkSize_formula_amended 400 200 200 (by norm_num) (by norm_num) (by norm_num) (by norm_num)

/-- C2, counterexample. For the source 10x5000 with the default D = 200 the
geometry computation yields the shrink size 0x282 and does not fail: with a
library that accepts every call, `convertImage` goes on to the resize with
that size and returns. -/
theorem zero_width_reaches_resize :
    shrinkSize 10 5000 200 = some (0, 282) ∧
      Call.resize 10 5000 0 282
        ∈ (convertImage allOk { width := 10, height := 5000 } 200 freshDevice).2.calls ∧
      (convertImage allOk { width := 10, height := 5000 } 200 freshDevice).1
        = Except.ok { width := 200, height := 200 } := by
  have hs : shrinkSize (toInt32 10) (toInt32 5000) 200 = some (0, 282) :=
    shrinkSize_10_5000_200
  obtain ⟨h1, h2⟩ :=
    convertImage_allOk { width := 10, height := 5000 } 200 freshDevice 0 282 hs
  refine ⟨shrinkSize_10_5000_200, ?_, ?_⟩
  · rw [h2]
    simp [toInt32]
  · rw [h1]
    rfl

/-- C2, amended. For every source of positive size and every destination
size `0 < D ≤ 2^30` the geometry computation of `convertImage` has no failure
of its own: it yields a shrink width and a shrink height that are never
negative but may be zero, and hands them unchecked to the allocation of the
shrink buffer and, when the library accepts that allocation, to the resize.
The shrink height is positive when `w + h ≤ 1.4142135 * D * h` and only when
`w + h ≤ 1.4142136 * D * h`; the shrink width is positive when
`shrinkHeight * w > h` and only when `shrinkHeight * w ≥ h`. In particular
both are positive when `5 * (w + h)^2 ≤ 7 * D * h * w`, and when
`h ≤ w ≤ (D - 1) * h`. -/
theorem shrinkSize_nonneg_unchecked (lib : Lib) (img : ImageCPU) (D : ℤ) (d : Device)
    (hw : 0 < img.width) (hw2 : img.width < 2 ^ 31) (hh : 0 < img.height)
    (hh2 : img.height < 2 ^ 31) (hD : 0 < D) (hD2 : D ≤ 2 ^ 30)
    (hu : lib.uploadOk d img.width img.height = true) :
    ∃ sw sh, shrinkSize img.width img.height D = some (sw, sh) ∧ 0 ≤ sw ∧ 0 ≤ sh ∧
      (∃ rest, (convertImage lib img D d).2.calls = d.calls ++
        Call.upload img.width img.height :: Call.alloc (toU32 sw) (toU32 sh) :: rest) ∧
      (lib.allocOk (d.call (Call.upload img.width img.height)).malloc.2
          (toU32 sw) (toU32 sh) = true →
        ∃ rest, (convertImage lib img D d).2.calls = d.calls ++
          Call.upload img.width img.height :: Call.alloc (toU32 sw) (toU32 sh) ::
            Call.resize img.width img.height sw sh :: rest) ∧
      (10 ^ 7 * ((img.width : ℤ) + img.height) ≤ 14142135 * (D * img.height) → 0 < sh) ∧
      (0 < sh → 10 ^ 7 * ((img.width : ℤ) + img.height) ≤ 14142136 * (D * img.height)) ∧
      ((img.height : ℤ) < sh * img.width → 0 < sw) ∧
      (0 < sw → (img.height : ℤ) ≤ sh * img.width) ∧
      (5 * ((img.width : ℤ) + img.height) ^ 2 ≤ 7 * (D * img.height * img.width) →
        0 < sw ∧ 0 < sh) ∧
      (img.height ≤ img.width → (img.width : ℤ) ≤ (D - 1) * img.height → 0 < sw ∧ 0 < sh) := by
  have hw' : (0 : ℤ) < img.width := by exact_mod_cast hw
  have hh' : (0 : ℤ) < img.height := by exact_mod_cast hh
  have hh2' : (img.height : ℤ) ≤ 2 ^ 31 := by exact_mod_cast hh2.le
  have hs := shrinkSize_eq hw' hh' hD.le hD2
  have hs32 : shrinkSize (toInt32 img.width) (toInt32 img.height) D
      = some (⌊widthValue ⌊heightValue img.width img.height D⌋ (ratioOf img.width img.height)⌋,
        ⌊heightValue img.width img.height D⌋) := by
    rw [toInt32_of_lt hw2, toInt32_of_lt hh2]
    exact hs
  have hr := ratioOf_pos hw' hh'
  have hz0 := heightValue_nonneg hw' hh' hD.le
  have hs0 : 0 ≤ ⌊heightValue img.width img.height D⌋ := Int.floor_nonneg.2 hz0
  have ht0 := widthValue_nonneg hs0 hr.le
  refine ⟨_, _, hs, Int.floor_nonneg.2 ht0, hs0, ?_, ?_, ?_, ?_, ?_, ?_, ?_, ?_⟩
  · exact convertImage_requests_shrink lib img D d _ _ hu hs32
  · intro ha
    have := convertImage_requests_resize lib img D d _ _ hu hs32 ha
    rwa [toInt32_of_lt hw2, toInt32_of_lt hh2] at this
  · exact height_pos_of hw' hh' hD.le
  · exact height_pos_only hw' hh' hD.le
  · exact width_pos_of hw' hh' hh2' hs0
  · exact width_pos_only hw' hh' hh2' hs0
  · exact both_pos_of hw' hh' hh2' hD.le
  · intro hwh hr2
    have hwh' : (img.height : ℤ) ≤ img.width := by exact_mod_cast hwh
    obtain ⟨v1, v2⟩ := values_ge_one hh' hwh' hD2 hr2
    constructor
    · have : (1 : ℤ) ≤ ⌊widthValue ⌊heightValue img.width img.height D⌋
          (ratioOf img.width img.height)⌋ := by
        rw [Int.le_floor]
        exact_mod_cast v2
      omega
    · have : (1 : ℤ) ≤ ⌊heightValue img.width img.height D⌋ := by
        rw [Int.le_floor]
        exact_mod_cast v1
      omega

/-- C2, amended: the statement at the portrait source 3000x4000 with
D = 200, on a device with nothing allocated and a library that accepts every
call. -/
theorem shrinkSize_nonneg_unchecked_witness :
    ∃ sw sh, shrinkSize 3000 4000 200 = some (sw, sh) ∧ 0 ≤ sw ∧ 0 ≤ sh ∧
      (∃ rest, (convertImage allOk { width := 3000, height := 4000 } 200 freshDevice).2.calls
        = freshDevice.calls ++
          Call.upload 3000 4000 :: Call.alloc (toU32 sw) (toU32 sh) :: rest) ∧
      (allOk.allocOk (freshDevice.call (Call.upload 3000 4000)).malloc.2
          (toU32 sw) (toU32 sh) = true →
        ∃ rest, (convertImage allOk { width := 3000, height := 4000 } 200 freshDevice).2.calls
          = freshDevice.calls ++ Call.upload 3000 4000 :: Call.alloc (toU32 sw) (toU32 sh) ::
            Call.resize 3000 4000 sw sh :: rest) ∧
      (10 ^ 7 * ((3000 : ℤ) + 4000) ≤ 14142135 * (200 * 4000) → 0 < sh) ∧
      (0 < sh → 10 ^ 7 * ((3000 : ℤ) + 4000) ≤ 14142136 * (200 * 4000)) ∧
      ((4000 : ℤ) < sh * 3000 → 0 < sw) ∧
      (0 < sw → (4000 : ℤ) ≤ sh * 3000) ∧
      (5 * ((3000 : ℤ) + 4000) ^ 2 ≤ 7 * (200 * 4000 * 3000) → 0 < sw ∧ 0 < sh) ∧
      (4000 ≤ 3000 → (3000 : ℤ) ≤ (200 - 1) * 4000 → 0 < sw ∧ 0 < sh) :=
  shrinkSize_nonneg_unchecked allOk { width := 3000, height := 4000 } 200 freshDevice
    (by norm_num) (by norm_num) (by norm_num) (by norm_num) (by norm_num) (by norm_num) rfl

/-- C3, counterexample. For the source 1x1 with D = 318281039 the shrink
size is 225058681x225058681, and `(shrinkWidth + shrinkHeight)^2` exceeds
`2 * D^2`: the rotated rectangle does not fit the destination square. -/
theorem shrink_rectangle_exceeds :
    shrinkSize 1 1 318281039 = some (225058681, 225058681) ∧
      ¬ ((225058681 + 225058681 : ℤ) ^ 2 ≤ 2 * 318281039 ^ 2) :=
  ⟨shrinkSize_1_1_318281039, by norm_num⟩

/-- C3, amended. For every source of positive size and every destination
size `0 < D ≤ 2^24`, the shrink size computed by `convertImage` satisfies
`(shrinkWidth + shrinkHeight)^2 ≤ 2 * D^2`: rotated by 45 degrees it fits the
destination square. -/
theorem shrinkSize_fits (w h D : ℤ) (hw : 0 < w) (hh : 0 < h) (hD : 0 < D) (hD2 : D ≤ 2 ^ 24) :
    ∃ sw sh, shrinkSize w h D = some (sw, sh) ∧ (sw + sh) ^ 2 ≤ 2 * D ^ 2 :=
  ⟨_, _, shrinkSize_eq hw hh hD.le (by omega), floors_fit hw hh hD.le hD2⟩

/-- C3, amended: the statement at the source 400x200 with D = 200. -/
theorem shrinkSize_fits_witness :
    ∃ sw sh, shrinkSize 400 200 200 = some (sw, sh) ∧ (sw + sh) ^ 2 ≤ 2 * (200 : ℤ) ^ 2 :=
  shrinkSize_fits 400 200 200 (by norm_num) (by norm_num) (by norm_num) (by norm_num)

/-- C4, failing input. A 40000x40000 bitmap with pitch 120000 (4.8 GB) in
which every byte of row `i` is `i % 256`: both start offsets
`pitch * (height - 1)` wrap modulo `2^32` to 504912704, so after the two
row loops the last row of the result (offset 39999 * 120000) was never
written and is still zero, while the original holds 63 there. -/
theorem roundTrip_wraps :
    saveImageCopy (loadImageCopy (rowPattern 120000) 40000 40000 120000 120000 blank)
        40000 40000 120000 120000 blank (39999 * 120000) = 0 ∧
      rowPattern 120000 (39999 * 120000) = 63 := by
  constructor
  · unfold saveImageCopy
    rw [saveRows_above]
    · rfl
    · norm_num [u32]
  · exact rowPattern_last

/-- C5. Whenever `convertImage` returns an image, its width and its height
are the destination size (as converted to the `unsigned int` of the image
class, so equal to `D` itself for every `D ≥ 0`). -/
theorem convertImage_output_size (lib : Lib) (img : ImageCPU) (D : ℤ) (d : Device)
    (out : ImageCPU) (h : (convertImage lib img D d).1 = Except.ok out) :
    out.width = toU32 D ∧ out.height = toU32 D ∧
      (0 ≤ D → D < 2 ^ 32 → (out.width : ℤ) = D ∧ (out.height : ℤ) = D) := by
  have e := convertImage_ok_size lib img D d out h
  subst e
  refine ⟨rfl, rfl, ?_⟩
  intro h0 h1
  exact ⟨toU32_of_nonneg h0 h1, toU32_of_nonneg h0 h1⟩

/-- C5: the statement at the source 400x200 with D = 200, where the call
returns a 200x200 image. -/
theorem convertImage_output_size_witness :
    (convertImage allOk { width := 400, height := 200 } 200 freshDevice).1
        = Except.ok { width := 200, height := 200 } ∧
      ((200 : Nat) = toU32 200 ∧ (200 : Nat) = toU32 200 ∧
        ((0 : ℤ) ≤ 200 → (200 : ℤ) < 2 ^ 32 →
          (((200 : Nat) : ℤ) = 200 ∧ ((200 : Nat) : ℤ) = 200))) :=
  have hs : shrinkSize (toInt32 400) (toInt32 200) 200 = some (188, 94) :=
    shrinkSize_400_200_200
  have hr := (convertImage_allOk { width := 400, height := 200 } 200 freshDevice 188 94 hs).1
  ⟨hr, convertImage_output_size allOk { width := 400, height := 200 } 200 freshDevice
    { width := 200, height := 200 } hr⟩

/-- C6. With a scoped library (the destructor of the device image frees its
buffer), every call of `convertImage` that throws, at the upload, at the
allocation of the shrink buffer or the resize, at the allocation of the
destination buffer or the rotate, or at the download, leaves the live device
allocations exactly as they were before the call: each buffer allocated
earlier in the call has been released, and their number is unchanged. -/
theorem convertImage_releases_on_failure (lib : Lib) (img : ImageCPU) (D : ℤ) (d : Device)
    (e : Exn) (hs : lib.Scoped) (h : (convertImage lib img D d).1 = Except.error e) :
    (convertImage lib img D d).2.live = d.live ∧
      (convertImage lib img D d).2.live.length = d.live.length := by
  have := convertImage_error_released lib img D d e hs h
  exact ⟨this, by rw [this]⟩

/-- C6: the statement at the source 400x200 with D = 200 on a device with
nothing allocated, when the resize reports an error. -/
theorem convertImage_releases_on_failure_witness :
    (convertImage resizeFails { width := 400, height := 200 } 200 freshDevice).1
        = Except.error Exn.resize ∧
      ((convertImage resizeFails { width := 400, height := 200 } 200 freshDevice).2.live
          = freshDevice.live ∧
        (convertImage resizeFails { width := 400, height := 200 } 200 freshDevice).2.live.length
          = freshDevice.live.length) :=
  have hs : shrinkSize (toInt32 400) (toInt32 200) 200 = some (188, 94) :=
    shrinkSize_400_200_200
  have hr := convertImage_resizeFails { width := 400, height := 200 } 200 freshDevice 188 94 hs
  ⟨hr, convertImage_releases_on_failure resizeFails { width := 400, height := 200 } 200
    freshDevice Exn.resize rfl hr⟩

/-- C7, counterexample. The command line `--size 0 a.png` is parsed to the
destination size 0, and `convertImage` with destination size 0 does not fail
before the device work: it uploads the input first, and with a library that
accepts every call it returns a 0x0 image. -/
theorem size_zero_reaches_device :
    parseArgLine ["thumb".toList, "--size".toList, "0".toList, "a.png".toList]
        = ParseResult.done
          { inputFiles := ["a.png".toList], preExtSuffix := "_thumb".toList, dstSizeBoth := 0 } ∧
      Call.upload 400 200
        ∈ (convertImage allOk { width := 400, height := 200 } 0 freshDevice).2.calls ∧
      (convertImage allOk { width := 400, height := 200 } 0 freshDevice).1
        = Except.ok { width := 0, height := 0 } := by
  have hs : shrinkSize (toInt32 400) (toInt32 200) 0 = some (0, 0) :=
    shrinkSize_zero (by decide) (by decide)
  obtain ⟨h1, h2⟩ := convertImage_allOk { width := 400, height := 200 } 0 freshDevice 0 0 hs
  refine ⟨by decide, ?_, ?_⟩
  · rw [h2]
    simp
  · rw [h1]
    rfl

/-- C7, amended. With the destination size 0 (which `parseArgLine` accepts
from `--size 0` without a check) `convertImage` validates nothing: its first
action is the upload of the input image to the device, the shrink size it
computes is 0x0, and after a successful upload it requests a 0x0 shrink
buffer; a failure can only come from a library call. -/
theorem convertImage_size_zero (lib : Lib) (img : ImageCPU) (d : Device)
    (hw2 : img.width < 2 ^ 31) (hh : 0 < img.height) (hh2 : img.height < 2 ^ 31) :
    (∃ rest, (convertImage lib img 0 d).2.calls
        = d.calls ++ Call.upload img.width img.height :: rest) ∧
      shrinkSize img.width img.height 0 = some (0, 0) ∧
      (lib.uploadOk d img.width img.height = true →
        ∃ rest, (convertImage lib img 0 d).2.calls
          = d.calls ++ Call.upload img.width img.height :: Call.alloc 0 0 :: rest) ∧
      parseArgLine ["thumb".toList, "--size".toList, "0".toList, "a.png".toList]
        = ParseResult.done
          { inputFiles := ["a.png".toList], preExtSuffix := "_thumb".toList, dstSizeBoth := 0 } := by
  have hs : shrinkSize (img.width : ℤ) (img.height : ℤ) 0 = some (0, 0) :=
    shrinkSize_zero (by positivity) (by exact_mod_cast hh)
  refine ⟨convertImage_calls lib img 0 d, hs, ?_, by decide⟩
  intro hu
  have := convertImage_requests_shrink lib img 0 d 0 0 hu
    (by rw [toInt32_of_lt hw2, toInt32_of_lt hh2]; exact hs)
  simpa [toU32] using this

/-- C7, amended: the statement at the source 400x200 on a device with
nothing allocated and a library that accepts every call. -/
theorem convertImage_size_zero_witness :
    (∃ rest, (convertImage allOk { width := 400, height := 200 } 0 freshDevice).2.calls
        = freshDevice.calls ++ Call.upload 400 200 :: rest) ∧
      shrinkSize 400 200 0 = some (0, 0) ∧
      (allOk.uploadOk freshDevice 400 200 = true →
        ∃ rest, (convertImage allOk { width := 400, height := 200 } 0 freshDevice).2.calls
          = freshDevice.calls ++ Call.upload 400 200 :: Call.alloc 0 0 :: rest) ∧
      parseArgLine ["thumb".toList, "--size".toList, "0".toList, "a.png".toList]
        = ParseResult.done
          { inputFiles := ["a.png".toList], preExtSuffix := "_thumb".toList, dstSizeBoth := 0 } :=
  convertImage_size_zero allOk { width := 400, height := 200 } freshDevice
    (by norm_num) (by norm_num) (by norm_num)

/-- C8. For every square source (width = height, not zero) and every positive
`int` destination size the shrink width equals the shrink height; for the
source 300x300 with D = 100 both are 70. -/
theorem shrinkSize_square (w D : ℤ) (hw : w ≠ 0) (hD : 0 < D) (hD2 : D < 2 ^ 31) :
    (∃ s, shrinkSize w w D = some (s, s)) ∧ shrinkSize 300 300 100 = some (70, 70) :=
  ⟨⟨_, shrinkSize_self hw hD hD2⟩, shrinkSize_300_300_100⟩

/-- C8: the statement at the source 300x300 with D = 100. -/
theorem shrinkSize_square_witness :
    (∃ s, shrinkSize 300 300 100 = some (s, s)) ∧ shrinkSize 300 300 100 = some (70, 70) :=
  shrinkSize_square 300 100 (by norm_num) (by norm_num) (by norm_num)

/-- C9, failing input. A 40000x40000 bitmap with pitch 120000 (4.8 GB) in
which every byte of row `i` is `i % 256`: the start offset
`srcPitch * (height - 1) = 4799880000` wraps modulo `2^32` to 504912704, so
row 0 of the destination receives bytes of source row 4207 (value 111) and not
of the last source row 39999 (value 63). -/
theorem loadImageCopy_wraps :
    loadImageCopy (rowPattern 120000) 40000 40000 120000 120000 blank 0 = 111 ∧
      rowPattern 120000 (39999 * 120000) = 63 := by
  constructor
  · unfold loadImageCopy
    have := loadRows_row (rowPattern 120000) 40000 120000 120000 (by norm_num [u32]) 40000
      (u32 (((120000 : Nat) : ℤ) * u32 (((40000 : Nat) : ℤ) - 1))) 0 blank 0 0
      (by norm_num) (by norm_num) (by norm_num [u32])
    simp only [Nat.cast_zero, zero_mul, add_zero, sub_zero] at this
    rw [this]
    norm_num [u32, rowPattern]
    rfl
  · exact rowPattern_last

/-- C10, failing input. For the path `pics.2024/photo`, whose file name has
no extension, the suffix is not appended at the end: it is put into the
directory name, before the last `.` of the whole path. -/
theorem getOutputFileName_dotted_directory :
    getOutputFileName "pics.2024/photo".toList "_thumb".toList
        = "pics_thumb.2024/photo".toList ∧
      suffixedFileName "pics.2024/photo".toList "_thumb".toList
        = "pics.2024/photo_thumb".toList := by
  constructor <;> decide

end RotatedThumbnail
